import Mathlib

/-!
Verification of the vector-store, chunker and scheduler core of the
ObsidianPrivateAI repository, shallowly embedded in Lean 4.

The embedding follows `src/ImageVectorDatabase.ts` and `src/RAGService.ts`:
pure functions become Lean functions, in-place mutation becomes explicit
state passing, thrown exceptions become `Option`-valued error components,
JavaScript numbers become real numbers, and `Date.now()` becomes an explicit
`now` argument.
-/

namespace ImageVectorDatabase

/-- Metadata of one stored chunk record, mirroring the `metadata` field of
`ImageDocument` in `ImageVectorDatabase.ts` (the `sourceType` tag is constant
and omitted). -/
structure DocMetadata where
  filePath : String
  fileName : String
  title : String
  paragraphIndex : Nat
  paragraphText : String
  fileChecksum : String
  lastModified : Nat
  fileSize : Nat
  extractedText : Bool

/-- One stored record, mirroring `ImageDocument`. -/
structure ImageDocument where
  id : String
  vector : List ℝ
  metadata : DocMetadata

/-- The index document, mirroring `ImageVectorIndex`. -/
structure ImageVectorIndex where
  version : String
  documents : List ImageDocument
  dimension : Nat
  lastUpdated : Nat

/-- The empty index built by the constructor and by the `load` failure path. -/
def freshIndex (now : Nat) : ImageVectorIndex :=
  { version := "2.0", documents := [], dimension := 0, lastUpdated := now }

/-- `load`: the dispatch logic of `ImageVectorDatabase.load`.  `parsed = none`
models a missing, unreadable or malformed index file (the `catch` branch);
`parsed = some li` models a successfully parsed document.  The code resets to
a fresh index only when the parsed `version` is exactly `"1.0"`; every other
parsed document is adopted as-is. -/
def load (parsed : Option ImageVectorIndex) (now : Nat) : ImageVectorIndex :=
  match parsed with
  | none => freshIndex now
  | some li => if li.version = "1.0" then freshIndex now else li

/-- `removeFileDocuments filePath`: filter out records of one source path;
`lastUpdated` is touched only when something was removed. -/
def removeFileDocuments (idx : ImageVectorIndex) (filePath : String) (now : Nat) :
    ImageVectorIndex :=
  let remaining := idx.documents.filter (fun doc => doc.metadata.filePath ≠ filePath)
  if remaining.length < idx.documents.length then
    { idx with documents := remaining, lastUpdated := now }
  else
    { idx with documents := remaining }

/-- The insertion loop of `upsertFileDocuments`: state is the current
`(dimension, documents)` pair; the third component is the dimension-mismatch
error (the TypeScript `throw`), which aborts the loop but keeps the state
mutated so far. -/
def upsertLoop : Nat → List ImageDocument → List ImageDocument →
    Nat × List ImageDocument × Option String
  | dim, docs, [] => (dim, docs, none)
  | dim, docs, d :: ds =>
    let dim' := if dim = 0 ∧ 0 < d.vector.length then d.vector.length else dim
    if d.vector.length ≠ dim' then
      (dim', docs, some "Image vector dimension mismatch")
    else
      upsertLoop dim' (docs ++ [d]) ds

/-- `upsertFileDocuments`: first removes the path's existing records, then
pushes the new ones one by one, throwing on a dimension mismatch.  The
returned pair is the post state (mutations persist even when the call throws)
and the thrown error, if any.  `lastUpdated := now` happens only on the
non-throwing path, as in the source. -/
def upsertFileDocuments (idx : ImageVectorIndex) (filePath : String)
    (newDocs : List ImageDocument) (now : Nat) : ImageVectorIndex × Option String :=
  let idx1 := removeFileDocuments idx filePath now
  let r := upsertLoop idx1.dimension idx1.documents newDocs
  (if r.2.2.isSome then { idx1 with dimension := r.1, documents := r.2.1 }
   else { idx1 with dimension := r.1, documents := r.2.1, lastUpdated := now }, r.2.2)

/-- `removeObsoleteDocuments existingFiles`: keep only records whose path is
a member of the given set (modeled as a list of paths). -/
def removeObsoleteDocuments (idx : ImageVectorIndex) (existingFiles : List String)
    (now : Nat) : ImageVectorIndex :=
  let remaining := idx.documents.filter (fun doc => existingFiles.contains doc.metadata.filePath)
  if remaining.length ≠ idx.documents.length then
    { idx with documents := remaining, lastUpdated := now }
  else
    { idx with documents := remaining }

/-- `clear`: reset to a fresh index. -/
def clear (now : Nat) : ImageVectorIndex := freshIndex now

/-- The store invariant that actually holds: every stored vector is nonempty
and has length equal to the index dimension. -/
def storeInv (idx : ImageVectorIndex) : Prop :=
  ∀ d ∈ idx.documents, d.vector.length = idx.dimension ∧ 0 < d.vector.length

/-- Fixture metadata. -/
def mdMeta (path : String) (i : Nat) : DocMetadata :=
  { filePath := path, fileName := path, title := path, paragraphIndex := i,
    paragraphText := "t", fileChecksum := "c", lastModified := 0, fileSize := 0,
    extractedText := true }

/-- Fixture record with a 1-dimensional vector for path `a.md`. -/
def doc0 : ImageDocument :=
  { id := "a.md#c0", vector := [(1 : ℝ)], metadata := mdMeta "a.md" 0 }

/-- Fixture record with a 2-dimensional vector for path `a.md`. -/
def docBad : ImageDocument :=
  { id := "a.md#c0", vector := [(1 : ℝ), 2], metadata := mdMeta "a.md" 0 }

/-- Fixture store: one record for `a.md`, dimension locked to 1. -/
def idx0 : ImageVectorIndex :=
  { version := "2.0", documents := [doc0], dimension := 1, lastUpdated := 0 }

theorem removeFileDocuments_documents (idx : ImageVectorIndex) (path : String) (now : Nat) :
    (removeFileDocuments idx path now).documents
      = idx.documents.filter (fun doc => doc.metadata.filePath ≠ path) := by
  simp only [removeFileDocuments]
  split <;> rfl

theorem removeFileDocuments_dimension (idx : ImageVectorIndex) (path : String) (now : Nat) :
    (removeFileDocuments idx path now).dimension = idx.dimension := by
  simp only [removeFileDocuments]
  split <;> rfl

theorem upsertLoop_mismatch (D : Nat) (hpos : 0 < D) :
    ∀ (ds docs : List ImageDocument), (∃ d ∈ ds, d.vector.length ≠ D) →
      upsertLoop D docs ds =
        (D, docs ++ ds.takeWhile (fun d => d.vector.length = D),
          some "Image vector dimension mismatch") := by
  intro ds
  induction ds with
  | nil => intro docs h; simp at h
  | cons d ds ih =>
    intro docs h
    have hdim' : (if D = 0 ∧ 0 < d.vector.length then d.vector.length else D) = D := by
      split <;> omega
    by_cases hlen : d.vector.length = D
    · have hrest : ∃ x ∈ ds, x.vector.length ≠ D := by
        rcases h with ⟨x, hx, hxne⟩
        rcases List.mem_cons.1 hx with rfl | hx'
        · exact absurd hlen hxne
        · exact ⟨x, hx', hxne⟩
      simp only [upsertLoop]
      rw [hdim', if_neg (by simp [hlen]), ih (docs ++ [d]) hrest]
      simp [List.takeWhile_cons, hlen, List.append_assoc]
    · simp only [upsertLoop]
      rw [hdim', if_pos (by simpa using hlen)]
      simp [List.takeWhile_cons, hlen]

/-- Claim C3 as stated is false: a dimension-mismatching upsert does modify
the store (the path's previous records are removed before the throw). -/
theorem c3_counterexample :
    (upsertFileDocuments idx0 "a.md" [docBad] 5).2.isSome = true ∧
    (upsertFileDocuments idx0 "a.md" [docBad] 5).1.documents ≠ idx0.documents := by
  constructor
  · rfl
  · intro h
    exact absurd (congrArg List.length h) (by decide)

/-- Claim C3 (corrected): once the dimension is locked to `D > 0`, an upsert
containing a chunk of a different dimension fails with a dimension-mismatch
error, and the post state keeps every other path's records unchanged; the call
is not atomic, however: the path's previous records are gone and the
well-dimensioned prefix of the new chunks has been appended. -/
theorem c3_dimension_mismatch (idx : ImageVectorIndex) (path : String)
    (newDocs : List ImageDocument) (now D : Nat) (hD : idx.dimension = D) (hpos : 0 < D)
    (hbad : ∃ d ∈ newDocs, d.vector.length ≠ D) :
    (upsertFileDocuments idx path newDocs now).2.isSome = true ∧
    (upsertFileDocuments idx path newDocs now).1.dimension = D ∧
    (upsertFileDocuments idx path newDocs now).1.documents =
      idx.documents.filter (fun doc => doc.metadata.filePath ≠ path)
        ++ newDocs.takeWhile (fun d => d.vector.length = D) := by
  have hdim : (removeFileDocuments idx path now).dimension = D := by
    rw [removeFileDocuments_dimension, hD]
  simp only [upsertFileDocuments]
  rw [hdim, upsertLoop_mismatch D hpos newDocs _ hbad]
  refine ⟨rfl, rfl, ?_⟩
  simp [removeFileDocuments_documents]

theorem c3_dimension_mismatch_witness :
    idx0.dimension = 1 ∧ 0 < 1 ∧ (∃ d ∈ [docBad], d.vector.length ≠ 1) ∧
    ((upsertFileDocuments idx0 "a.md" [docBad] 5).2.isSome = true ∧
      (upsertFileDocuments idx0 "a.md" [docBad] 5).1.dimension = 1 ∧
      (upsertFileDocuments idx0 "a.md" [docBad] 5).1.documents =
        idx0.documents.filter (fun doc => doc.metadata.filePath ≠ "a.md")
          ++ [docBad].takeWhile (fun d => d.vector.length = 1)) :=
  ⟨rfl, by omega, ⟨docBad, List.mem_cons_self _ _, by simp [docBad]⟩,
    c3_dimension_mismatch idx0 "a.md" [docBad] 5 1 rfl (by omega)
      ⟨docBad, List.mem_cons_self _ _, by simp [docBad]⟩⟩

/-- The store reached by upserting one 1-dimensional record for `a.md` into a
fresh index and then removing `a.md` again. -/
def idxAfterRemove : ImageVectorIndex :=
  removeFileDocuments ((upsertFileDocuments (freshIndex 0) "a.md" [doc0] 1).1) "a.md" 2

/-- Claim C4 as stated is false: removing the last source's chunks leaves the
store empty but keeps `dimension = 1`, so `dimension > 0 ↔ chunks ≠ ∅` fails. -/
theorem c4_counterexample :
    idxAfterRemove.documents = [] ∧ idxAfterRemove.dimension ≠ 0 := by
  constructor
  · rfl
  · decide

theorem upsertLoop_inv :
    ∀ (ds : List ImageDocument) (dim : Nat) (docs : List ImageDocument),
      (∀ d ∈ docs, d.vector.length = dim ∧ 0 < d.vector.length) →
      (∀ d ∈ ds, 0 < d.vector.length) →
      ∀ d ∈ (upsertLoop dim docs ds).2.1,
        d.vector.length = (upsertLoop dim docs ds).1 ∧ 0 < d.vector.length := by
  intro ds
  induction ds with
  | nil => intro dim docs h _; simpa [upsertLoop] using h
  | cons d ds ih =>
    intro dim docs h hds
    have hd : 0 < d.vector.length := hds d (List.mem_cons_self _ _)
    have hds' : ∀ x ∈ ds, 0 < x.vector.length := fun x hx => hds x (List.mem_cons_of_mem _ hx)
    by_cases h0 : dim = 0
    · have hdocs : docs = [] := by
        cases docs with
        | nil => rfl
        | cons x xs =>
          rcases h x (List.mem_cons_self _ _) with ⟨hx1, hx2⟩
          omega
      subst h0 hdocs
      have hdim' : (if True ∧ 0 < d.vector.length then d.vector.length else 0)
          = d.vector.length := by simp [hd]
      simp only [upsertLoop]
      rw [hdim', if_neg (by simp)]
      refine ih d.vector.length [d] ?_ hds'
      intro x hx
      rcases List.mem_singleton.1 hx with rfl
      exact ⟨rfl, hd⟩
    · have hdim' : (if dim = 0 ∧ 0 < d.vector.length then d.vector.length else dim) = dim := by
        rw [if_neg (by rintro ⟨h1, -⟩; exact h0 h1)]
      by_cases hlen : d.vector.length = dim
      · simp only [upsertLoop]
        rw [hdim', if_neg (by simp [hlen])]
        refine ih dim (docs ++ [d]) ?_ hds'
        intro x hx
        rcases List.mem_append.1 hx with hx' | hx'
        · exact h x hx'
        · rcases List.mem_singleton.1 hx' with rfl
          exact ⟨hlen, hd⟩
      · simp only [upsertLoop]
        rw [hdim', if_pos (by simpa using hlen)]
        exact h

/-- Claim C4 (corrected): the invariant that actually holds after every
committed operation is: every stored vector is nonempty and has length equal
to `dimension` (so `chunks ≠ ∅ → dimension > 0`, provided upserted vectors are
nonempty).  The converse direction of the claimed equivalence fails:
`removeFileDocuments` and `removeObsoleteDocuments` never touch `dimension`,
so removing the last source's chunks leaves the old positive dimension in
place; only `clear` resets it to 0. -/
theorem c4_store_invariant :
    (∀ (idx : ImageVectorIndex) (path : String) (docs : List ImageDocument) (now : Nat),
        storeInv idx → (∀ d ∈ docs, 0 < d.vector.length) →
        storeInv (upsertFileDocuments idx path docs now).1) ∧
    (∀ (idx : ImageVectorIndex) (path : String) (now : Nat),
        storeInv idx → storeInv (removeFileDocuments idx path now)) ∧
    (∀ (idx : ImageVectorIndex) (files : List String) (now : Nat),
        storeInv idx → storeInv (removeObsoleteDocuments idx files now)) ∧
    (∀ now : Nat, storeInv (clear now)) ∧
    (∀ (idx : ImageVectorIndex) (path : String) (now : Nat),
        (removeFileDocuments idx path now).dimension = idx.dimension) ∧
    (∀ (idx : ImageVectorIndex) (files : List String) (now : Nat),
        (removeObsoleteDocuments idx files now).dimension = idx.dimension) ∧
    (∀ idx : ImageVectorIndex, storeInv idx → idx.documents ≠ [] → 0 < idx.dimension) := by
  refine ⟨?_, ?_, ?_, ?_, ?_, ?_, ?_⟩
  · intro idx path docs now hinv hpos
    have hinv1 : storeInv (removeFileDocuments idx path now) := by
      intro d hd
      rw [removeFileDocuments_documents] at hd
      rw [removeFileDocuments_dimension]
      exact hinv d (List.mem_of_mem_filter hd)
    simp only [upsertFileDocuments, storeInv]
    split <;> exact upsertLoop_inv docs _ _ hinv1 hpos
  · intro idx path now hinv d hd
    rw [removeFileDocuments_documents] at hd
    rw [removeFileDocuments_dimension]
    exact hinv d (List.mem_of_mem_filter hd)
  · intro idx files now hinv d hd
    simp only [removeObsoleteDocuments] at hd ⊢
    constructor
    · have : d ∈ idx.documents.filter (fun doc => files.contains doc.metadata.filePath) := by
        revert hd; split <;> exact fun h => h
      have hmem := List.mem_of_mem_filter this
      have := (hinv d hmem).1
      revert this; split <;> exact fun h => h
    · have : d ∈ idx.documents.filter (fun doc => files.contains doc.metadata.filePath) := by
        revert hd; split <;> exact fun h => h
      exact (hinv d (List.mem_of_mem_filter this)).2
  · intro now d hd
    simp [clear, freshIndex] at hd
  · intro idx path now
    exact removeFileDocuments_dimension idx path now
  · intro idx files now
    simp only [removeObsoleteDocuments]
    split <;> rfl
  · intro idx hinv hne
    cases hdocs : idx.documents with
    | nil => exact absurd hdocs hne
    | cons d ds =>
      rcases hinv d (hdocs ▸ List.mem_cons_self _ _) with ⟨h1, h2⟩
      omega

theorem c4_store_invariant_witness :
    storeInv idx0 ∧ storeInv (removeFileDocuments idx0 "a.md" 2) ∧ storeInv (clear 0) :=
  have hinv : storeInv idx0 := by
    intro d hd
    rcases List.mem_singleton.1 hd with rfl
    exact ⟨rfl, by simp [doc0]⟩
  ⟨hinv, c4_store_invariant.2.1 idx0 "a.md" 2 hinv, c4_store_invariant.2.2.2.1 0⟩

/-- Claim C10: upserting an empty chunk list never fails and behaves exactly
like `removeFileDocuments` on the record set: the path's records are deleted,
every other path's records are untouched, and the dimension is unchanged. -/
theorem c10_upsert_empty (idx : ImageVectorIndex) (path : String) (now : Nat) :
    (upsertFileDocuments idx path [] now).2 = none ∧
    (upsertFileDocuments idx path [] now).1.documents =
      (removeFileDocuments idx path now).documents ∧
    (upsertFileDocuments idx path [] now).1.documents =
      idx.documents.filter (fun doc => doc.metadata.filePath ≠ path) ∧
    (upsertFileDocuments idx path [] now).1.dimension = idx.dimension ∧
    (removeFileDocuments idx path now).dimension = idx.dimension := by
  refine ⟨rfl, rfl, ?_, ?_, removeFileDocuments_dimension idx path now⟩
  · simp only [upsertFileDocuments, upsertLoop]
    rw [if_neg (by simp)]
    exact removeFileDocuments_documents idx path now
  · simp only [upsertFileDocuments, upsertLoop]
    rw [if_neg (by simp)]
    exact removeFileDocuments_dimension idx path now

/-- Claim C8 as stated is false: a parsed index whose version is neither the
current `"2.0"` nor the legacy `"1.0"` (here `"3.0"`) is adopted as-is instead
of being discarded. -/
theorem c8_counterexample :
    ("3.0" : String) ≠ "2.0" ∧
    (load (some ⟨"3.0", [doc0], 1, 7⟩) 9).documents ≠ [] ∧
    (load (some ⟨"3.0", [doc0], 1, 7⟩) 9).dimension ≠ 0 := by
  refine ⟨by decide, ?_, by decide⟩
  intro h
  exact absurd (congrArg List.length h) (by decide)

/-- Claim C8 (corrected): `load` never raises; a missing, unreadable or
malformed file (modeled as `none`) and a parsed document with version exactly
`"1.0"` both give a fresh empty index, while any other parsed document —
whatever its version — is adopted as-is. -/
theorem c8_load_dispatch :
    (∀ now : Nat, load none now = freshIndex now) ∧
    (∀ (li : ImageVectorIndex) (now : Nat), li.version = "1.0" →
        load (some li) now = freshIndex now) ∧
    (∀ (li : ImageVectorIndex) (now : Nat), li.version ≠ "1.0" →
        load (some li) now = li) := by
  refine ⟨fun now => rfl, fun li now h => ?_, fun li now h => ?_⟩
  · simp [load, h]
  · simp [load, h]

theorem c8_load_dispatch_witness :
    load (some ⟨"1.0", [doc0], 1, 7⟩) 3 = freshIndex 3 ∧
    load (some ⟨"3.0", [doc0], 1, 7⟩) 9 = ⟨"3.0", [doc0], 1, 7⟩ ∧
    load none 4 = freshIndex 4 :=
  ⟨c8_load_dispatch.2.1 ⟨"1.0", [doc0], 1, 7⟩ 3 rfl,
    c8_load_dispatch.2.2 ⟨"3.0", [doc0], 1, 7⟩ 9 (by decide),
    c8_load_dispatch.1 4⟩

/-- Dot product of `cosineSimilarity`'s main loop. -/
def dotProduct (a b : List ℝ) : ℝ := (List.zipWith (fun x y => x * y) a b).sum

/-- Sum of squares accumulated by the same loop. -/
def sumSq (a : List ℝ) : ℝ := dotProduct a a

/-- `Math.sqrt` of the accumulated sum of squares (`normA` / `normB`). -/
noncomputable def vecNorm (a : List ℝ) : ℝ := Real.sqrt (sumSq a)

/-- The numeric value computed by `cosineSimilarity` once the length check has
passed: 0 when either norm is 0, else the normalized dot product. -/
noncomputable def cosineSimilarityVal (a b : List ℝ) : ℝ :=
  if vecNorm a = 0 ∨ vecNorm b = 0 then 0
  else dotProduct a b / (vecNorm a * vecNorm b)

/-- `cosineSimilarity` including its thrown length-mismatch error (`none`). -/
noncomputable def cosineSimilarity (a b : List ℝ) : Option ℝ :=
  if a.length ≠ b.length then none else some (cosineSimilarityVal a b)

/-- The `documents.map` step of `search`, pairing each record with its
similarity; the first length-mismatch throw aborts the whole map. -/
noncomputable def similarityPairs (q : List ℝ) :
    List ImageDocument → Option (List (ImageDocument × ℝ))
  | [] => some []
  | d :: ds =>
    match cosineSimilarity q d.vector with
    | none => none
    | some s =>
      match similarityPairs q ds with
      | none => none
      | some rest => some ((d, s) :: rest)

/-- Descending-by-similarity order used by `search`'s comparator
`(a, b) => b.similarity - a.similarity`. -/
def descBySim (x y : ImageDocument × ℝ) : Prop := y.2 ≤ x.2

noncomputable instance : DecidableRel descBySim := fun x y => Real.decidableLE y.2 x.2

instance : IsTotal (ImageDocument × ℝ) descBySim := ⟨fun x y => le_total y.2 x.2⟩

instance : IsTrans (ImageDocument × ℝ) descBySim := ⟨fun _ _ _ h1 h2 => le_trans h2 h1⟩

/-- `search`: similarities against every record, filter by threshold, stable
sort descending (JavaScript `Array.prototype.sort` is stable; insertion sort
with `descBySim` realizes the same stable descending order), truncate. -/
noncomputable def search (idx : ImageVectorIndex) (q : List ℝ) (limit : Nat)
    (threshold : ℝ) : Option (List (ImageDocument × ℝ)) :=
  if idx.documents.isEmpty then some []
  else
    match similarityPairs q idx.documents with
    | none => none
    | some sims =>
      some ((List.insertionSort descBySim
        (sims.filter (fun p => decide (threshold ≤ p.2)))).take limit)

theorem similarityPairs_eq (q : List ℝ) :
    ∀ docs : List ImageDocument, (∀ d ∈ docs, d.vector.length = q.length) →
      similarityPairs q docs
        = some (docs.map (fun d => (d, cosineSimilarityVal q d.vector))) := by
  intro docs
  induction docs with
  | nil => intro _; rfl
  | cons d ds ih =>
    intro h
    have hd : ¬ (q.length ≠ d.vector.length) := by
      rw [h d (List.mem_cons_self _ _)]; exact fun hc => hc rfl
    have hds := ih (fun x hx => h x (List.mem_cons_of_mem _ hx))
    simp only [similarityPairs, cosineSimilarity, if_neg hd, hds, List.map_cons]

theorem search_eq (idx : ImageVectorIndex) (q : List ℝ) (threshold : ℝ)
    (hlen : ∀ d ∈ idx.documents, d.vector.length = q.length) (L : Nat) :
    search idx q L threshold
      = some ((List.insertionSort descBySim
          ((idx.documents.map (fun d => (d, cosineSimilarityVal q d.vector))).filter
            (fun p => decide (threshold ≤ p.2)))).take L) := by
  by_cases hempty : idx.documents.isEmpty
  · have hnil : idx.documents = [] := by
      cases h : idx.documents with
      | nil => rfl
      | cons x xs => rw [h] at hempty; simp [List.isEmpty] at hempty
    simp [search, hempty, hnil]
  · simp only [search, if_neg hempty, similarityPairs_eq q idx.documents hlen]

/-- Claim C1: `search(q, N, t)` returns (as `some`) the threshold-filtered
record/similarity pairs, sorted by similarity descending and truncated to at
most `N` entries — precisely, the truncation of a descending-sorted
permutation of exactly the pairs whose similarity is `≥ t`; and a zero-norm
record or query is assigned similarity 0.  The hypothesis is the store
invariant that all records share the query's dimension (a mismatch makes the
source throw). -/
theorem c1_search_spec (idx : ImageVectorIndex) (q : List ℝ) (limit : Nat) (threshold : ℝ)
    (hlen : ∀ d ∈ idx.documents, d.vector.length = q.length) :
    (∃ l : List (ImageDocument × ℝ),
        l.Perm ((idx.documents.map (fun d => (d, cosineSimilarityVal q d.vector))).filter
          (fun p => decide (threshold ≤ p.2))) ∧
        List.Sorted descBySim l ∧
        search idx q limit threshold = some (l.take limit)) ∧
    (∀ d ∈ idx.documents, vecNorm q = 0 ∨ vecNorm d.vector = 0 →
        cosineSimilarity q d.vector = some 0) := by
  constructor
  · refine ⟨List.insertionSort descBySim
      ((idx.documents.map (fun d => (d, cosineSimilarityVal q d.vector))).filter
        (fun p => decide (threshold ≤ p.2))), ?_, ?_, ?_⟩
    · exact List.perm_insertionSort descBySim _
    · exact List.sorted_insertionSort descBySim _
    · exact search_eq idx q threshold hlen limit
  · intro d hd h0
    have hd' : ¬ (q.length ≠ d.vector.length) := by
      rw [hlen d hd]; exact fun hc => hc rfl
    simp only [cosineSimilarity, if_neg hd', cosineSimilarityVal, if_pos h0]

/-- Query fixture: unit vector along the first axis. -/
noncomputable def wQ : List ℝ := [1, 0]

/-- Witness record for path `a.md` with vector `[1, 0]`. -/
noncomputable def wDoc1 : ImageDocument :=
  { id := "a.md#c0", vector := [1, 0], metadata := mdMeta "a.md" 0 }

/-- Witness record for path `b.md` with vector `[0, 1]`. -/
noncomputable def wDoc2 : ImageDocument :=
  { id := "b.md#c0", vector := [0, 1], metadata := mdMeta "b.md" 0 }

/-- Witness store holding `wDoc1` and `wDoc2`. -/
noncomputable def wIdx : ImageVectorIndex :=
  { version := "2.0", documents := [wDoc1, wDoc2], dimension := 2, lastUpdated := 0 }

theorem wIdx_hlen : ∀ d ∈ wIdx.documents, d.vector.length = wQ.length := by
  intro d hd
  simp only [wIdx, List.mem_cons, List.mem_singleton] at hd
  rcases hd with rfl | rfl | h
  · rfl
  · rfl
  · cases h

theorem c1_search_spec_witness :
    (∃ l : List (ImageDocument × ℝ),
        l.Perm ((wIdx.documents.map (fun d => (d, cosineSimilarityVal wQ d.vector))).filter
          (fun p => decide ((0 : ℝ) ≤ p.2))) ∧
        List.Sorted descBySim l ∧
        search wIdx wQ 5 0 = some (l.take 5)) ∧
    (∀ d ∈ wIdx.documents, vecNorm wQ = 0 ∨ vecNorm d.vector = 0 →
        cosineSimilarity wQ d.vector = some 0) :=
  c1_search_spec wIdx wQ 5 0 wIdx_hlen

/-- Similarity of a bucket's first entry, read by the grouping comparator
`b[1][0].similarity - a[1][0].similarity`.  A bucket can be empty only when
`maxParagraphsPerFile = 0` (there the JavaScript comparator would fault on
`undefined`); the 0 default merely keeps the model total — the C2 theorem
assumes `1 ≤ maxParagraphsPerFile`, under which every bucket is nonempty. -/
def headSim (l : List (ImageDocument × ℝ)) : ℝ :=
  match l with
  | [] => 0
  | r :: _ => r.2

/-- Descending order on buckets by the similarity of their first entry. -/
def groupRel (x y : String × List (ImageDocument × ℝ)) : Prop :=
  headSim y.2 ≤ headSim x.2

noncomputable instance : DecidableRel groupRel :=
  fun x y => Real.decidableLE (headSim y.2) (headSim x.2)

instance : IsTotal (String × List (ImageDocument × ℝ)) groupRel :=
  ⟨fun x y => le_total (headSim y.2) (headSim x.2)⟩

instance : IsTrans (String × List (ImageDocument × ℝ)) groupRel :=
  ⟨fun _ _ _ h1 h2 => le_trans h2 h1⟩

/-- One step of the grouping loop of `searchGroupedByFile`: find (or append)
the bucket of the hit's file path, then push the hit only while the bucket
holds fewer than `maxPer` entries.  The JavaScript `Map` keeps insertion
order, modeled by an ordered association list. -/
def bucketAdd (maxPer : Nat) : List (String × List (ImageDocument × ℝ)) →
    (ImageDocument × ℝ) → List (String × List (ImageDocument × ℝ))
  | [], r => [(r.1.metadata.filePath, if 0 < maxPer then [r] else [])]
  | (k, v) :: rest, r =>
    if k = r.1.metadata.filePath then
      (k, if v.length < maxPer then v ++ [r] else v) :: rest
    else
      (k, v) :: bucketAdd maxPer rest r

/-- `searchGroupedByFile`: plain search with headroom
`maxFiles * maxParagraphsPerFile * 2`, group the hits by file path capping
each bucket, then keep the top `maxFiles` buckets sorted descending by their
first entry's similarity (again a stable sort). -/
noncomputable def searchGroupedByFile (idx : ImageVectorIndex) (q : List ℝ)
    (maxFiles maxPer : Nat) (threshold : ℝ) :
    Option (List (String × List (ImageDocument × ℝ))) :=
  match search idx q (maxFiles * maxPer * 2) threshold with
  | none => none
  | some allResults =>
    some ((List.insertionSort groupRel
      (allResults.foldl (bucketAdd maxPer) [])).take maxFiles)

/-- Invariant of the grouping loop: each bucket is nonempty, capped at `P`,
keyed consistently, and draws its entries from `pool`. -/
def bucketsOk (P : Nat) (pool : List (ImageDocument × ℝ))
    (bs : List (String × List (ImageDocument × ℝ))) : Prop :=
  ∀ b ∈ bs, b.2 ≠ [] ∧ b.2.length ≤ P ∧ ∀ r ∈ b.2, r ∈ pool ∧ r.1.metadata.filePath = b.1

theorem bucketAdd_ok (P : Nat) (hP : 1 ≤ P) (pool : List (ImageDocument × ℝ))
    (r : ImageDocument × ℝ) (hr : r ∈ pool) :
    ∀ acc, bucketsOk P pool acc → bucketsOk P pool (bucketAdd P acc r) := by
  intro acc
  induction acc with
  | nil =>
    intro _ b hb
    simp only [bucketAdd, if_pos (by omega : 0 < P)] at hb
    rcases List.mem_singleton.1 hb with rfl
    refine ⟨by simp, by simp [hP], ?_⟩
    intro x hx
    rcases List.mem_singleton.1 hx with rfl
    exact ⟨hr, rfl⟩
  | cons kv rest ih =>
    intro hok b hb
    obtain ⟨k, v⟩ := kv
    by_cases hk : k = r.1.metadata.filePath
    · simp only [bucketAdd, if_pos hk] at hb
      rcases List.mem_cons.1 hb with rfl | hb'
      · rcases hok (k, v) (List.mem_cons_self _ _) with ⟨hne, hlen, hmem⟩
        by_cases hv : v.length < P
        · simp only [if_pos hv]
          refine ⟨by simp, ?_, ?_⟩
          · simp only [List.length_append, List.length_cons, List.length_nil]
            omega
          · intro x hx
            rcases List.mem_append.1 hx with hx' | hx'
            · exact hmem x hx'
            · rcases List.mem_singleton.1 hx' with rfl
              exact ⟨hr, hk.symm⟩
        · simp only [if_neg hv]
          exact hok (k, v) (List.mem_cons_self _ _)
      · exact hok _ (List.mem_cons_of_mem _ hb')
    · simp only [bucketAdd, if_neg hk] at hb
      rcases List.mem_cons.1 hb with rfl | hb'
      · exact hok (k, v) (List.mem_cons_self _ _)
      · exact ih (fun x hx => hok x (List.mem_cons_of_mem _ hx)) b hb'

theorem foldl_bucketAdd_ok (P : Nat) (hP : 1 ≤ P) (pool : List (ImageDocument × ℝ)) :
    ∀ (rs : List (ImageDocument × ℝ)) (acc), (∀ r ∈ rs, r ∈ pool) →
      bucketsOk P pool acc → bucketsOk P pool (rs.foldl (bucketAdd P) acc) := by
  intro rs
  induction rs with
  | nil => intro acc _ hok; exact hok
  | cons r rs ih =>
    intro acc hrs hok
    rw [List.foldl_cons]
    exact ih _ (fun x hx => hrs x (List.mem_cons_of_mem _ hx))
      (bucketAdd_ok P hP pool r (hrs r (List.mem_cons_self _ _)) acc hok)

theorem foldl_bucketAdd_head (P : Nat) :
    ∀ (rs : List (ImageDocument × ℝ)) (k0 : String) (r0 : ImageDocument × ℝ)
      (v0 : List (ImageDocument × ℝ)) (rest : List (String × List (ImageDocument × ℝ))),
      ∃ v' rest', rs.foldl (bucketAdd P) ((k0, r0 :: v0) :: rest) = (k0, r0 :: v') :: rest' := by
  intro rs
  induction rs with
  | nil => intro k0 r0 v0 rest; exact ⟨v0, rest, rfl⟩
  | cons r rs ih =>
    intro k0 r0 v0 rest
    rw [List.foldl_cons]
    by_cases hk : k0 = r.1.metadata.filePath
    · by_cases hv : (r0 :: v0).length < P
      · simpa only [bucketAdd, if_pos hk, if_pos hv, List.cons_append] using
          ih k0 r0 (v0 ++ [r]) rest
      · simpa only [bucketAdd, if_pos hk, if_neg hv] using ih k0 r0 v0 rest
    · simpa only [bucketAdd, if_neg hk] using ih k0 r0 v0 (bucketAdd P rest r)

theorem bucketAdd_sorted_step (P : Nat) (r : ImageDocument × ℝ)
    (rs : List (ImageDocument × ℝ)) (hr : ∀ r' ∈ rs, descBySim r r') :
    ∀ acc, (∀ b ∈ acc, List.Sorted descBySim b.2 ∧
        ∀ x ∈ b.2, ∀ r' ∈ r :: rs, descBySim x r') →
      ∀ b ∈ bucketAdd P acc r, List.Sorted descBySim b.2 ∧
        ∀ x ∈ b.2, ∀ r' ∈ rs, descBySim x r' := by
  intro acc
  induction acc with
  | nil =>
    intro _ b hb
    simp only [bucketAdd] at hb
    rcases List.mem_singleton.1 hb with rfl
    dsimp only
    split
    · refine ⟨List.sorted_singleton r, ?_⟩
      intro x hx
      rcases List.mem_singleton.1 hx with rfl
      exact hr
    · exact ⟨List.sorted_nil, by simp⟩
  | cons kv rest ih =>
    intro hacc b hb
    obtain ⟨k, v⟩ := kv
    by_cases hk : k = r.1.metadata.filePath
    · simp only [bucketAdd, if_pos hk] at hb
      rcases List.mem_cons.1 hb with rfl | hb'
      · rcases hacc (k, v) (List.mem_cons_self _ _) with ⟨hsor, hmem⟩
        by_cases hv : v.length < P
        · simp only [if_pos hv]
          constructor
          · show List.Pairwise descBySim (v ++ [r])
            rw [List.pairwise_append]
            refine ⟨hsor, List.pairwise_singleton _ _, ?_⟩
            intro x hx y hy
            rcases List.mem_singleton.1 hy with rfl
            exact hmem x hx y (List.mem_cons_self _ _)
          · intro x hx r' hr'
            rcases List.mem_append.1 hx with hx' | hx'
            · exact hmem x hx' r' (List.mem_cons_of_mem _ hr')
            · rcases List.mem_singleton.1 hx' with rfl
              exact hr r' hr'
        · simp only [if_neg hv]
          exact ⟨hsor, fun x hx r' hr' =>
            hmem x hx r' (List.mem_cons_of_mem _ hr')⟩
      · rcases hacc b (List.mem_cons_of_mem _ hb') with ⟨hsor, hmem⟩
        exact ⟨hsor, fun x hx r' hr' => hmem x hx r' (List.mem_cons_of_mem _ hr')⟩
    · simp only [bucketAdd, if_neg hk] at hb
      rcases List.mem_cons.1 hb with rfl | hb'
      · rcases hacc (k, v) (List.mem_cons_self _ _) with ⟨hsor, hmem⟩
        exact ⟨hsor, fun x hx r' hr' => hmem x hx r' (List.mem_cons_of_mem _ hr')⟩
      · exact ih (fun x hx => hacc x (List.mem_cons_of_mem _ hx)) b hb'

theorem foldl_bucketAdd_sorted (P : Nat) :
    ∀ (rs : List (ImageDocument × ℝ)) (acc), List.Sorted descBySim rs →
      (∀ b ∈ acc, List.Sorted descBySim b.2 ∧ ∀ x ∈ b.2, ∀ r' ∈ rs, descBySim x r') →
      ∀ b ∈ rs.foldl (bucketAdd P) acc, List.Sorted descBySim b.2 := by
  intro rs
  induction rs with
  | nil => intro acc _ hacc b hb; exact (hacc b hb).1
  | cons r rs ih =>
    intro acc hsorted hacc
    rw [List.foldl_cons]
    have hr : ∀ r' ∈ rs, descBySim r r' := (List.pairwise_cons.1 hsorted).1
    exact ih _ (List.pairwise_cons.1 hsorted).2
      (bucketAdd_sorted_step P r rs hr acc hacc)

theorem insertionSort_cons_of_max {α : Type} (r : α → α → Prop) [DecidableRel r]
    (b0 : α) (bs : List α) (h : ∀ b ∈ bs, r b0 b) :
    List.insertionSort r (b0 :: bs) = b0 :: List.insertionSort r bs := by
  show List.orderedInsert r b0 (List.insertionSort r bs) = _
  cases hs : List.insertionSort r bs with
  | nil => rfl
  | cons c cs =>
    have hc : c ∈ bs := (List.perm_insertionSort r bs).subset (by rw [hs]; exact List.mem_cons_self _ _)
    rw [List.orderedInsert, if_pos (h c hc)]

/-- Claim C2: `searchGroupedByFile(q, S, P, t)` first runs `search` with limit
`2·S·P`, buckets the hits by file path keeping at most `P` per bucket, and
returns at most `S` nonempty buckets ordered descending by their best hit
(each bucket is itself sorted descending, so its first entry is its best);
every returned entry clears the threshold and sits in the bucket of its own
path, and whenever any hit exists, the first entry of the top bucket is
exactly the top hit of the ungrouped search at the same threshold. -/
theorem c2_search_grouped (idx : ImageVectorIndex) (q : List ℝ) (S P : Nat) (threshold : ℝ)
    (hS : 1 ≤ S) (hP : 1 ≤ P)
    (hlen : ∀ d ∈ idx.documents, d.vector.length = q.length) :
    ∃ g, searchGroupedByFile idx q S P threshold = some g ∧
      g.length ≤ S ∧
      (∀ b ∈ g, b.2 ≠ [] ∧ b.2.length ≤ P ∧
        ∀ r ∈ b.2, threshold ≤ r.2 ∧ r.1.metadata.filePath = b.1) ∧
      (∀ b ∈ g, List.Sorted descBySim b.2) ∧
      List.Sorted groupRel g ∧
      (∀ allResults, search idx q (S * P * 2) threshold = some allResults →
        allResults ≠ [] →
        ∃ b0 rest0, g = b0 :: rest0 ∧ b0.2.head? = allResults.head?) ∧
      (∀ allResults, search idx q (S * P * 2) threshold = some allResults →
        search idx q 1 threshold = some (allResults.take 1)) := by
  classical
  set F := (idx.documents.map (fun d => (d, cosineSimilarityVal q d.vector))).filter
    (fun p => decide (threshold ≤ p.2)) with hF
  set SL := List.insertionSort descBySim F with hSL
  have hsearch : ∀ L, search idx q L threshold = some (SL.take L) :=
    fun L => search_eq idx q threshold hlen L
  set pool := SL.take (S * P * 2) with hpool
  have hpoolmem : ∀ r ∈ pool, threshold ≤ r.2 := by
    intro r hr
    have h1 : r ∈ SL := List.mem_of_mem_take hr
    have h2 : r ∈ F := (List.perm_insertionSort descBySim F).subset h1
    have := (List.mem_filter.1 h2).2
    exact of_decide_eq_true this
  have hbuckets : bucketsOk P pool (pool.foldl (bucketAdd P) []) :=
    foldl_bucketAdd_ok P hP pool pool [] (fun r hr => hr) (fun b hb => absurd hb (by simp))
  have hpoolsorted : List.Sorted descBySim pool := by
    have := List.sorted_insertionSort descBySim F
    exact List.Pairwise.sublist (List.take_sublist _ _) this
  refine ⟨(List.insertionSort groupRel (pool.foldl (bucketAdd P) [])).take S,
    ?_, ?_, ?_, ?_, ?_, ?_, ?_⟩
  · simp only [searchGroupedByFile, hsearch (S * P * 2)]
  · exact List.length_take_le _ _
  · intro b hb
    have hb1 : b ∈ List.insertionSort groupRel (pool.foldl (bucketAdd P) []) :=
      List.mem_of_mem_take hb
    have hb2 : b ∈ pool.foldl (bucketAdd P) [] :=
      (List.perm_insertionSort groupRel _).subset hb1
    rcases hbuckets b hb2 with ⟨hne, hcap, hmem⟩
    exact ⟨hne, hcap, fun r hr => ⟨hpoolmem r (hmem r hr).1, (hmem r hr).2⟩⟩
  · intro b hb
    have hb1 : b ∈ List.insertionSort groupRel (pool.foldl (bucketAdd P) []) :=
      List.mem_of_mem_take hb
    have hb2 : b ∈ pool.foldl (bucketAdd P) [] :=
      (List.perm_insertionSort groupRel _).subset hb1
    exact foldl_bucketAdd_sorted P pool [] hpoolsorted (by simp) b hb2
  · exact List.Pairwise.sublist (List.take_sublist _ _)
      (List.sorted_insertionSort groupRel _)
  · intro allResults hall hne
    have hall' : allResults = pool := by
      have := hsearch (S * P * 2)
      rw [this] at hall
      exact (Option.some.inj hall).symm
    subst hall'
    cases hpoolc : pool with
    | nil => exact absurd hpoolc hne
    | cons r0 rs =>
      have hfold1 : pool.foldl (bucketAdd P) []
          = rs.foldl (bucketAdd P) [(r0.1.metadata.filePath, [r0])] := by
        rw [hpoolc, List.foldl_cons]
        have : bucketAdd P [] r0 = [(r0.1.metadata.filePath, [r0])] := by
          simp only [bucketAdd, if_pos (by omega : 0 < P)]
        rw [this]
      obtain ⟨v', rest', hhead⟩ :=
        foldl_bucketAdd_head P rs r0.1.metadata.filePath r0 [] []
      have hfold2 : pool.foldl (bucketAdd P) []
          = (r0.1.metadata.filePath, r0 :: v') :: rest' := by
        rw [hfold1, hhead]
      have hmax : ∀ b ∈ rest', groupRel (r0.1.metadata.filePath, r0 :: v') b := by
        intro b hb
        have hb' : b ∈ pool.foldl (bucketAdd P) [] := by
          rw [hfold2]; exact List.mem_cons_of_mem _ hb
        rcases hbuckets b hb' with ⟨hne', -, hmem'⟩
        cases hbv : b.2 with
        | nil => exact absurd hbv hne'
        | cons s ss =>
          have hs : s ∈ pool := (hmem' s (by rw [hbv]; exact List.mem_cons_self _ _)).1
          have hs2 : s.2 ≤ r0.2 := by
            rw [hpoolc] at hs
            rcases List.mem_cons.1 hs with rfl | hs'
            · exact le_refl _
            · have hsorted := hpoolc ▸ hpoolsorted
              exact (List.pairwise_cons.1 hsorted).1 s hs'
          show headSim b.2 ≤ headSim (r0 :: v')
          rw [hbv]
          exact hs2
      obtain ⟨S', rfl⟩ : ∃ S', S = S' + 1 := ⟨S - 1, by omega⟩
      rw [hpoolc] at hfold2
      refine ⟨(r0.1.metadata.filePath, r0 :: v'),
        (List.insertionSort groupRel rest').take S', ?_, ?_⟩
      · rw [hfold2, insertionSort_cons_of_max groupRel _ _ hmax,
          List.take_succ_cons]
      · simp [hpoolc]
  · intro allResults hall
    have hall' : allResults = pool := by
      have := hsearch (S * P * 2)
      rw [this] at hall
      exact (Option.some.inj hall).symm
    subst hall'
    rw [hsearch 1, hpool, List.take_take]
    congr 1
    have : min 1 (S * P * 2) = 1 := by
      have : 2 ≤ S * P * 2 := by nlinarith
      omega
    rw [this]

theorem c2_search_grouped_witness :
    ∃ g, searchGroupedByFile wIdx wQ 1 1 0 = some g ∧
      g.length ≤ 1 ∧
      (∀ b ∈ g, b.2 ≠ [] ∧ b.2.length ≤ 1 ∧
        ∀ r ∈ b.2, (0 : ℝ) ≤ r.2 ∧ r.1.metadata.filePath = b.1) ∧
      (∀ b ∈ g, List.Sorted descBySim b.2) ∧
      List.Sorted groupRel g ∧
      (∀ allResults, search wIdx wQ (1 * 1 * 2) 0 = some allResults →
        allResults ≠ [] →
        ∃ b0 rest0, g = b0 :: rest0 ∧ b0.2.head? = allResults.head?) ∧
      (∀ allResults, search wIdx wQ (1 * 1 * 2) 0 = some allResults →
        search wIdx wQ 1 0 = some (allResults.take 1)) :=
  c2_search_grouped wIdx wQ 1 1 0 le_rfl le_rfl wIdx_hlen

end ImageVectorDatabase

namespace RAGService

/-- State of the per-path debounce machinery of `queueFileUpdate` in
`RAGService.ts`, for one fixed path: `pending` is the deadline of the armed
`setTimeout` handle held in `fileUpdateQueue` (if any), and `fired` counts the
timer callbacks that have already run, i.e. the single-source reindexes
submitted for this path (the claim's hypothesis is that the path is never the
active document, so a firing callback always proceeds to the reindex). -/
structure DebounceState where
  pending : Option Nat
  fired : Nat

/-- One modify event at time `t`: if an armed timer's deadline has already
passed, its callback ran (one reindex) and the map entry was deleted; an armed
timer whose deadline lies in the future is cancelled via `clearTimeout`.
Either way a new 500 ms timer is armed (`delay` generalizes the 500). -/
def debounceStep (delay : Nat) (s : DebounceState) (t : Nat) : DebounceState :=
  match s.pending with
  | none => { pending := some (t + delay), fired := s.fired }
  | some d =>
    if d ≤ t then { pending := some (t + delay), fired := s.fired + 1 }
    else { pending := some (t + delay), fired := s.fired }

/-- Total number of timer callbacks that ever run for a finite event trace:
whatever timer is still pending after the last event eventually fires. -/
def debounceFires (s : DebounceState) : Nat :=
  s.fired + (if s.pending.isSome then 1 else 0)

/-- Run `queueFileUpdate`'s debounce logic over a trace of modify-event times
for one path and count the reindexes performed. -/
def debounceRun (delay : Nat) (events : List Nat) : Nat :=
  debounceFires (events.foldl (debounceStep delay) { pending := none, fired := 0 })

theorem debounce_aux (delay B : Nat) :
    ∀ (rest : List Nat) (c f : Nat), B ≤ c + delay →
      (∀ x ∈ rest, x < B) → List.Pairwise (· ≤ ·) (c :: rest) →
      debounceFires (rest.foldl (debounceStep delay)
        { pending := some (c + delay), fired := f }) = f + 1 := by
  intro rest
  induction rest with
  | nil => intro c f _ _ _; rfl
  | cons e rest ih =>
    intro c f hB hwin hpair
    have hce : c ≤ e := (List.pairwise_cons.1 hpair).1 e (List.mem_cons_self _ _)
    have hlt : ¬ (c + delay ≤ e) := by
      have := hwin e (List.mem_cons_self _ _)
      omega
    have hstep : debounceStep delay { pending := some (c + delay), fired := f } e
        = { pending := some (e + delay), fired := f } := by
      simp [debounceStep, hlt]
    rw [List.foldl_cons, hstep]
    refine ih e f (by omega) (fun x hx => hwin x (List.mem_cons_of_mem _ hx)) ?_
    have hp := (List.pairwise_cons.1 hpair).2
    exact hp

/-- Claim C9: a burst of modify events on one path, strictly increasing in
time and all within 500 ms of the first, causes exactly one timer callback —
each event cancels the pending timer and re-arms it, so only the timer armed
by the last event fires, giving one single-source reindex. -/
theorem c9_debounce (t : Nat) (rest : List Nat)
    (hmono : List.Pairwise (· < ·) (t :: rest))
    (hwin : ∀ x ∈ rest, x < t + 500) :
    debounceRun 500 (t :: rest) = 1 := by
  unfold debounceRun
  rw [List.foldl_cons]
  have hstep : debounceStep 500 { pending := none, fired := 0 } t
      = { pending := some (t + 500), fired := 0 } := rfl
  rw [hstep]
  exact debounce_aux 500 (t + 500) rest t 0 le_rfl hwin
    (hmono.imp (fun h => le_of_lt h))

theorem c9_debounce_witness :
    List.Pairwise (· < ·) [100, 300, 550] ∧ debounceRun 500 [100, 300, 550] = 1 :=
  ⟨by decide, c9_debounce 100 [300, 550] (by decide) (by decide)⟩

end RAGService

namespace RAGService

/-!
Embedding of the chunker of `RAGService.ts` (`splitIntoParagraphs`,
`isNaturalBreakPoint`, `splitLongChunk`) over `List Char`.  JavaScript string
primitives are modeled on the character list: `split('\n')`, `split(/\s+/)`,
`split(/[.!?]+\s+/)`, `trim`, `replace(/\s+/g, ' ')`, and the frontmatter
regex `/^---\s*\n([\s\S]*?)\n---\s*\n/` including its lazy body and greedy
`\s*` backtracking.
-/

/-- JavaScript `\s` on the character range exercised by the chunker. -/
def ws (c : Char) : Bool := c.isWhitespace

/-- Run-counting word counter: `wcAux inWord l` counts the maximal
non-whitespace runs of `l`, not counting the first run when `inWord` is set.
`wordCount l` equals JavaScript `l.split(/\s+/).filter(w => w.length > 0).length`. -/
def wcAux : Bool → List Char → Nat
  | _, [] => 0
  | inWord, c :: rest =>
    if ws c then wcAux false rest
    else (cond inWord 0 1) + wcAux true rest

/-- Word count of a string: the number of maximal non-whitespace runs. -/
def wordCount (l : List Char) : Nat := wcAux false l

/-- JavaScript `trim()`: drop the leading whitespace run, then the trailing
one (via reversal). -/
def trim (l : List Char) : List Char :=
  ((l.dropWhile (fun c => ws c)).reverse.dropWhile (fun c => ws c)).reverse

/-- JavaScript `replace(/\s+/g, ' ')`: collapse each maximal whitespace run
to a single space. -/
def collapse : List Char → List Char
  | [] => []
  | [c] => if ws c then [' '] else [c]
  | c :: c2 :: rest =>
    if ws c then
      (if ws c2 then collapse (c2 :: rest) else ' ' :: collapse (c2 :: rest))
    else c :: collapse (c2 :: rest)

/-- Prepend a character to the first piece of a split result. -/
def consHead (c : Char) : List (List Char) → List (List Char)
  | [] => [[c]]
  | p :: ps => (c :: p) :: ps

/-- JavaScript `split('\n')`. -/
def splitNl : List Char → List (List Char)
  | [] => [[]]
  | c :: rest =>
    if c = '\n' then [] :: splitNl rest
    else consHead c (splitNl rest)

/-- JavaScript `split(/\s+/)`: pieces between maximal whitespace runs,
including boundary empties (`" a"` gives `["", "a"]`, `"a "` gives
`["a", ""]`, `""` gives `[""]`). -/
def splitWs : List Char → List (List Char)
  | [] => [[]]
  | [c] => if ws c then [[], []] else [[c]]
  | c :: c2 :: rest =>
    if ws c then
      (if ws c2 then splitWs (c2 :: rest) else [] :: splitWs (c2 :: rest))
    else consHead c (splitWs (c2 :: rest))

/-- Sentence punctuation of `split(/[.!?]+\s+/)`. -/
def isPunct (c : Char) : Bool := c == '.' || c == '!' || c == '?'

/-- Fueled scanner for `split(/[.!?]+\s+/)`: a separator is a maximal
punctuation run followed by at least one whitespace character (the maximal
whitespace run is consumed greedily); a shorter punctuation run can never
match where the maximal one fails, so checking the maximal run is exact. -/
def splitSentFuel : Nat → List Char → List (List Char)
  | 0, l => [l]
  | _ + 1, [] => [[]]
  | fuel + 1, c :: rest =>
    if isPunct c then
      match (c :: rest).dropWhile isPunct with
      | [] => consHead c (splitSentFuel fuel rest)
      | a :: tl =>
        if ws a then
          [] :: splitSentFuel fuel ((a :: tl).dropWhile (fun x => ws x))
        else consHead c (splitSentFuel fuel rest)
    else consHead c (splitSentFuel fuel rest)

/-- JavaScript `split(/[.!?]+\s+/)`. -/
def splitSent (l : List Char) : List (List Char) := splitSentFuel l.length l

/-- JavaScript `Array.prototype.join(' ')`. -/
def joinWords : List (List Char) → List Char
  | [] => []
  | [w] => w
  | w :: rest => w ++ ' ' :: joinWords rest

/-- The force-split loop of `splitLongChunk`: slice the word array into
`maxWords`-sized groups and join each with single spaces.  The fuel guard
makes the `i += maxWords` loop structural; it is never hit when the fuel is
at least the list length and `0 < maxWords`. -/
def forceSplit (maxWords : Nat) : Nat → List (List Char) → List (List Char)
  | _, [] => []
  | 0, l => [joinWords l]
  | fuel + 1, l => joinWords (l.take maxWords) :: forceSplit maxWords fuel (l.drop maxWords)

/-- One step of `splitLongChunk`'s greedy sentence loop; state is
`(currentChunk, currentWordCount, chunks)`. -/
def sentStep (maxWords : Nat) (st : List Char × Nat × List (List Char))
    (sentence : List Char) : List Char × Nat × List (List Char) :=
  let sw := wordCount sentence
  if maxWords < st.2.1 + sw ∧ st.1 ≠ [] then
    (sentence, sw, st.2.2 ++ [trim st.1])
  else
    ((if st.1 = [] then sentence else st.1 ++ '.' :: ' ' :: sentence), st.2.1 + sw, st.2.2)

/-- `splitLongChunk`: return the chunk whole when its `split(/\s+/)` count is
within bounds; otherwise split at sentence boundaries greedily, then force
split any piece still exceeding `maxWords` into `maxWords`-word slices. -/
def splitLongChunk (chunk : List Char) (maxWords : Nat) : List (List Char) :=
  if (splitWs chunk).length ≤ maxWords then [chunk]
  else
    let st := (splitSent chunk).foldl (sentStep maxWords) ([], 0, [])
    let chunks := if trim st.1 ≠ [] then st.2.2 ++ [trim st.1] else st.2.2
    (chunks.map (fun c =>
      if maxWords < (splitWs c).length then forceSplit maxWords (splitWs c).length (splitWs c)
      else [c])).flatten

/-- `/^#{1,6}\s+/`: one to six hashes then whitespace (a longer hash run can
never backtrack into a match, since the character after at most six hashes
would itself be a hash). -/
def isHeadingLine (l : List Char) : Bool :=
  let hashes := l.takeWhile (fun c => c == '#')
  decide (1 ≤ hashes.length) && decide (hashes.length ≤ 6) &&
    (match l.dropWhile (fun c => c == '#') with
     | [] => false
     | c :: _ => ws c)

/-- `/^\d+\.\s+/`. -/
def isNumberedLine (l : List Char) : Bool :=
  decide (1 ≤ (l.takeWhile (fun c => c.isDigit)).length) &&
    (match l.dropWhile (fun c => c.isDigit) with
     | '.' :: c :: _ => ws c
     | _ => false)

/-- `/^[-*+]\s+/`. -/
def isBulletLine (l : List Char) : Bool :=
  match l with
  | c :: c2 :: _ => (c == '-' || c == '*' || c == '+') && ws c2
  | _ => false

/-- `/^[-*_]{3,}$/`: the whole line is at least three rule characters. -/
def isHrLine (l : List Char) : Bool :=
  decide (3 ≤ l.length) && l.all (fun c => c == '-' || c == '*' || c == '_')

/-- `/^>\s+/`. -/
def isQuoteLine (l : List Char) : Bool :=
  match l with
  | c :: c2 :: _ => c == '>' && ws c2
  | _ => false

/-- `isNaturalBreakPoint(currentLine, nextLine)`: `currentLine` arrives
trimmed, `nextLine` is the raw following line (`undefined` at the end, and
JavaScript truthiness makes the empty string behave like `undefined` in the
`nextLine &&` guards).  The source's underlined-heading regex
`/^.+\n[=-]+$/` can never match a single split line (it requires a literal
newline) and is therefore `false` here; the end-of-bullet and
end-of-numbered-run disjuncts are subsumed by the plain bullet/numbered
disjuncts but kept for fidelity. -/
def isNaturalBreakPoint (currentLine : List Char) (nextLine : Option (List Char)) : Bool :=
  (decide (currentLine = []) &&
    (match nextLine with
     | some nl => decide (nl ≠ []) && decide (trim nl ≠ [])
     | none => false)) ||
  isHeadingLine currentLine || isNumberedLine currentLine || isBulletLine currentLine ||
  (isBulletLine currentLine &&
    (match nextLine with
     | some nl => decide (nl ≠ []) && !(isBulletLine nl) && decide (trim nl ≠ [])
     | none => false)) ||
  (isNumberedLine currentLine &&
    (match nextLine with
     | some nl => decide (nl ≠ []) && !(isNumberedLine nl) && decide (trim nl ≠ [])
     | none => false)) ||
  ("```".data.isPrefixOf currentLine) || ("~~~`".data.isPrefixOf currentLine) ||
  isHrLine currentLine || isQuoteLine currentLine

/-- Scanner for a newline immediately followed by a dash; used to state when
the frontmatter body cannot contain a premature closing delimiter. -/
def hasNlDash : List Char → Bool
  | [] => false
  | [_] => false
  | c :: c2 :: rest => (c == '\n' && c2 == '-') || hasNlDash (c2 :: rest)

/-- Indices of newline characters inside the leading whitespace run: the
match candidates of a greedy `\s*` immediately followed by `\n`. -/
def nlPositions (l : List Char) : List Nat :=
  (List.range (l.takeWhile (fun c => ws c)).length).filter
    (fun i => decide ((l.takeWhile (fun c => ws c)).get? i = some '\n'))

/-- Greedy `\s*\n` at the current position: consume through the last newline
of the leading whitespace run, failing when it has no newline. -/
def closeAfter (s : List Char) : Option (List Char) :=
  match (nlPositions s).reverse with
  | [] => none
  | k :: _ => some (s.drop (k + 1))

/-- Lazy search for the closing `\n---\s*\n` of the frontmatter regex:
earliest candidate first, greedy trailing whitespace. -/
def findClose : List Char → Option (List Char)
  | [] => none
  | c :: rest =>
    if c == '\n' && "---".data.isPrefixOf rest then
      match closeAfter (rest.drop 3) with
      | some rem => some rem
      | none => findClose rest
    else findClose rest

/-- Try the opening's `\s*\n` candidates (longest first, as the greedy `\s*`
backtracks); for each, search for the earliest closing. -/
def tryOpen (rest : List Char) : List Nat → Option (List Char)
  | [] => none
  | i :: is =>
    match findClose (rest.drop (i + 1)) with
    | some rem => some rem
    | none => tryOpen rest is

/-- The frontmatter preprocessing
`content.match(/^---\s*\n([\s\S]*?)\n---\s*\n/)`: on a match, the matched
prefix is removed; otherwise the content is returned unchanged. -/
def stripFrontmatter (content : List Char) : List Char :=
  if "---".data.isPrefixOf content then
    match tryOpen (content.drop 3) (nlPositions (content.drop 3)).reverse with
    | some rem => rem
    | none => content
  else content

/-- A chunk as returned by `splitIntoParagraphs`: its text and the `index`
recorded at push time (`chunks.length`). -/
structure ChunkContent where
  text : List Char
  index : Nat
deriving DecidableEq

/-- Push a list of texts sequentially, indexing each with the current
length, as the `splitLongChunk` handler's push loop does. -/
def appendChunks (acc : List ChunkContent) : List (List Char) → List ChunkContent
  | [] => acc
  | t :: ts => appendChunks (acc ++ [⟨t, acc.length⟩]) ts

/-- `currentChunk += (line === '' ? '\n' : '\n' + line)`, covering the
empty-buffer assignment as well. -/
def lineJoin (cur line : List Char) : List Char :=
  if cur = [] then line
  else cur ++ '\n' :: (if line = [] then [] else line)

/-- One iteration's branch decision of the line loop: either emit the
current buffer (forced break past 250 words, or a natural break past the
200-word target) and restart the buffer from the line, or append the line to
the buffer.  Returns the new `(currentChunk, currentWordCount, chunks)`. -/
def chunkStep (cur : List Char) (cnt : Nat) (acc : List ChunkContent)
    (line : List Char) (next : Option (List Char)) :
    List Char × Nat × List ChunkContent :=
  if cur ≠ [] ∧ (250 < cnt + wordCount line ∨
      (200 < cnt + wordCount line ∧ isNaturalBreakPoint line next = true)) then
    (line, wordCount line,
      if collapse (trim cur) ≠ [] then acc ++ [⟨collapse (trim cur), acc.length⟩] else acc)
  else (lineJoin cur line, cnt + wordCount line, acc)

/-- The line loop of `splitIntoParagraphs`: `cur`/`cnt` are
`currentChunk`/`currentWordCount`, `acc` is `chunks`.  Per iteration: skip
blank lines at a chunk start; run `chunkStep`; then, when the buffer exceeds
250 words, push the `splitLongChunk` pieces and reset.  The final buffer is
pushed after the loop. -/
def chunkLoop : List (List Char) → List Char → Nat → List ChunkContent → List ChunkContent
  | [], cur, _, acc =>
    if trim cur ≠ [] then acc ++ [⟨collapse (trim cur), acc.length⟩] else acc
  | raw :: rest, cur, cnt, acc =>
    if cur = [] ∧ trim raw = [] then chunkLoop rest cur cnt acc
    else
      if 250 < (chunkStep cur cnt acc (trim raw) rest.head?).2.1 then
        chunkLoop rest [] 0
          (if collapse (trim (chunkStep cur cnt acc (trim raw) rest.head?).1) ≠ [] then
            appendChunks (chunkStep cur cnt acc (trim raw) rest.head?).2.2
              (splitLongChunk
                (collapse (trim (chunkStep cur cnt acc (trim raw) rest.head?).1)) 250)
          else (chunkStep cur cnt acc (trim raw) rest.head?).2.2)
      else
        chunkLoop rest (chunkStep cur cnt acc (trim raw) rest.head?).1
          (chunkStep cur cnt acc (trim raw) rest.head?).2.1
          (chunkStep cur cnt acc (trim raw) rest.head?).2.2

/-- `splitIntoParagraphs`: strip frontmatter, split into lines, run the
chunking loop, then drop chunks of fewer than 10 words (without touching the
recorded indices). -/
def splitIntoParagraphs (content : List Char) : List ChunkContent :=
  (chunkLoop (splitNl (stripFrontmatter content)) [] 0 []).filter
    (fun c => decide (10 ≤ wordCount c.text))

end RAGService


namespace RAGService

/-- The in-word flag after scanning a string. -/
def flagAfter (f : Bool) : List Char → Bool
  | [] => f
  | c :: rest => flagAfter (if ws c then false else true) rest

theorem wcAux_append : ∀ (a : List Char) (f : Bool) (b : List Char),
    wcAux f (a ++ b) = wcAux f a + wcAux (flagAfter f a) b := by
  intro a
  induction a with
  | nil => intro f b; simp [wcAux, flagAfter]
  | cons c a ih =>
    intro f b
    rw [List.cons_append]
    by_cases hc : ws c
    · rw [show wcAux f (c :: (a ++ b)) = wcAux false (a ++ b) from by simp [wcAux, hc]]
      rw [show wcAux f (c :: a) = wcAux false a from by simp [wcAux, hc]]
      rw [show flagAfter f (c :: a) = flagAfter false a from by simp [flagAfter, hc]]
      exact ih false b
    · rw [show wcAux f (c :: (a ++ b))
          = (cond f 0 1) + wcAux true (a ++ b) from by simp [wcAux, hc]]
      rw [show wcAux f (c :: a) = (cond f 0 1) + wcAux true a from by
        simp [wcAux, hc]]
      rw [show flagAfter f (c :: a) = flagAfter true a from by simp [flagAfter, hc]]
      rw [ih true b, Nat.add_assoc]

theorem wcAux_allws : ∀ (s : List Char) (f : Bool), (∀ c ∈ s, ws c = true) →
    wcAux f s = 0 := by
  intro s
  induction s with
  | nil => intro f _; rfl
  | cons c s ih =>
    intro f h
    have hc := h c (List.mem_cons_self _ _)
    simp only [wcAux, if_pos hc]
    exact ih false (fun x hx => h x (List.mem_cons_of_mem _ hx))

theorem wordCount_append_ws (a b : List Char) (c : Char) (hc : ws c = true) :
    wordCount (a ++ c :: b) = wordCount a + wordCount b := by
  unfold wordCount
  rw [wcAux_append a false (c :: b)]
  simp only [wcAux, if_pos hc]

theorem wcAux_dropWhile_ws : ∀ l : List Char,
    wcAux false (l.dropWhile (fun c => ws c)) = wcAux false l := by
  intro l
  induction l with
  | nil => rfl
  | cons c rest ih =>
    by_cases hc : ws c
    · rw [List.dropWhile_cons_of_pos (by simpa using hc), ih]
      simp [wcAux, hc]
    · rw [List.dropWhile_cons_of_neg (by simpa using hc)]

theorem trim_decomp (l : List Char) :
    ∃ s, l.dropWhile (fun c => ws c) = trim l ++ s ∧ ∀ c ∈ s, ws c = true := by
  refine ⟨((l.dropWhile (fun c => ws c)).reverse.takeWhile (fun c => ws c)).reverse, ?_, ?_⟩
  · conv_lhs => rw [← (l.dropWhile (fun c => ws c)).reverse_reverse]
    conv_lhs =>
      rw [← List.takeWhile_append_dropWhile (p := fun c => ws c)
        (l := (l.dropWhile (fun c => ws c)).reverse)]
    rw [List.reverse_append]
    rfl
  · intro c hc
    rw [List.mem_reverse] at hc
    exact List.mem_takeWhile_imp hc

theorem wordCount_trim (l : List Char) : wordCount (trim l) = wordCount l := by
  rcases trim_decomp l with ⟨s, hs, hws⟩
  have h1 : wordCount (l.dropWhile (fun c => ws c)) = wordCount l := wcAux_dropWhile_ws l
  rw [← h1, hs]
  unfold wordCount
  rw [wcAux_append, wcAux_allws s _ hws]
  omega

theorem wcAux_collapse : ∀ (l : List Char) (f : Bool),
    wcAux f (collapse l) = wcAux f l := by
  intro l
  induction l with
  | nil => intro f; rfl
  | cons c rest ih =>
    intro f
    cases rest with
    | nil =>
      by_cases hc : ws c
      · simp only [collapse, if_pos hc]
        rw [show wcAux f [' '] = 0 from by
          simp [wcAux, show ws ' ' = true from by decide]]
        simp [wcAux, hc]
      · simp only [collapse, if_neg hc]
    | cons c2 rest2 =>
      by_cases hc : ws c
      · by_cases hc2 : ws c2
        · simp only [collapse, if_pos hc, if_pos hc2]
          rw [ih f]
          simp only [wcAux, if_pos hc, if_pos hc2]
        · simp only [collapse, if_pos hc, if_neg hc2]
          rw [show wcAux f (' ' :: collapse (c2 :: rest2))
              = wcAux false (collapse (c2 :: rest2)) from by
            simp [wcAux, show ws ' ' = true from by decide]]
          rw [ih false]
          simp [wcAux, hc]
      · simp only [collapse, if_neg hc]
        rw [show wcAux f (c :: collapse (c2 :: rest2))
            = (cond f 0 1) + wcAux true (collapse (c2 :: rest2)) from by
          simp [wcAux, hc]]
        rw [ih true]
        simp [wcAux, hc]

theorem wordCount_collapse (l : List Char) : wordCount (collapse l) = wordCount l :=
  wcAux_collapse l false

theorem wcAux_flag : ∀ l : List Char,
    wcAux true l ≤ wcAux false l ∧ wcAux false l ≤ wcAux true l + 1 := by
  intro l
  cases l with
  | nil => exact ⟨le_rfl, Nat.le_succ 0⟩
  | cons c rest =>
    by_cases hc : ws c
    · rw [show wcAux true (c :: rest) = wcAux false rest from by simp [wcAux, hc]]
      rw [show wcAux false (c :: rest) = wcAux false rest from by simp [wcAux, hc]]
      exact ⟨le_rfl, Nat.le_succ _⟩
    · rw [show wcAux true (c :: rest) = wcAux true rest from by simp [wcAux, hc]]
      rw [show wcAux false (c :: rest) = 1 + wcAux true rest from by simp [wcAux, hc]]
      constructor <;> omega

theorem wordCount_cons_le (c : Char) (l : List Char) :
    wordCount l ≤ wordCount (c :: l) := by
  unfold wordCount
  by_cases hc : ws c
  · rw [show wcAux false (c :: l) = wcAux false l from by simp [wcAux, hc]]
  · rw [show wcAux false (c :: l) = 1 + wcAux true l from by simp [wcAux, hc]]
    have := (wcAux_flag l).2
    omega

theorem wordCount_suffix_le : ∀ (t l : List Char), wordCount l ≤ wordCount (t ++ l) := by
  intro t l
  induction t with
  | nil => simp
  | cons c t ih => exact le_trans ih (wordCount_cons_le c (t ++ l))

theorem wordCount_of_suffix {l₁ l₂ : List Char} (h : l₁ <:+ l₂) :
    wordCount l₁ ≤ wordCount l₂ := by
  rcases h with ⟨t, rfl⟩
  exact wordCount_suffix_le t l₁

theorem wordCount_lineJoin (cur line : List Char) :
    wordCount (lineJoin cur line) = wordCount cur + wordCount line := by
  unfold lineJoin
  by_cases h : cur = []
  · simp [h, wordCount, wcAux]
  · rw [if_neg h]
    by_cases hl : line = []
    · rw [if_pos hl, hl]
      rw [wordCount_append_ws cur [] '\n' (by rfl)]
    · rw [if_neg hl]
      exact wordCount_append_ws cur line '\n' (by rfl)

theorem splitNl_ne_nil : ∀ l : List Char, splitNl l ≠ [] := by
  intro l
  cases l with
  | nil => simp [splitNl]
  | cons c rest =>
    simp only [splitNl]
    split
    · simp
    · unfold consHead
      split <;> simp

theorem splitNl_wcAux : ∀ (l : List Char) (f : Bool) (p : List Char)
    (ps : List (List Char)), splitNl l = p :: ps →
    wcAux f l = wcAux f p + (ps.map wordCount).sum := by
  intro l
  induction l with
  | nil =>
    intro f p ps h
    simp only [splitNl] at h
    injection h with h1 h2
    subst h1; subst h2
    simp [wcAux]
  | cons c rest ih =>
    intro f p ps h
    by_cases hc : c = '\n'
    · subst hc
      rw [show splitNl ('\n' :: rest) = [] :: splitNl rest from by simp [splitNl]] at h
      injection h with h1 h2
      subst h1; subst h2
      cases hrest : splitNl rest with
      | nil => exact absurd hrest (splitNl_ne_nil rest)
      | cons p' ps' =>
        have h1 := ih false p' ps' hrest
        rw [show wcAux f ('\n' :: rest) = wcAux false rest from by
          simp [wcAux, show ws '\n' = true from by decide]]
        rw [h1]
        simp only [List.map_cons, List.sum_cons, wcAux, wordCount]
        omega
    · rw [show splitNl (c :: rest) = consHead c (splitNl rest) from by
        simp [splitNl, hc]] at h
      cases hrest : splitNl rest with
      | nil => exact absurd hrest (splitNl_ne_nil rest)
      | cons p' ps' =>
        rw [hrest] at h
        simp only [consHead] at h
        injection h with h1 h2
        subst h1; subst h2
        by_cases hws : ws c
        · have h1 := ih false p' ps' hrest
          simp only [wcAux, if_pos hws]
          rw [h1]
        · have h1 := ih true p' ps' hrest
          simp only [wcAux, if_neg hws]
          rw [h1]
          omega

theorem splitNl_sum : ∀ l : List Char,
    ((splitNl l).map wordCount).sum = wordCount l := by
  intro l
  cases h : splitNl l with
  | nil => exact absurd h (splitNl_ne_nil l)
  | cons p ps =>
    have := splitNl_wcAux l false p ps h
    simp only [List.map_cons, List.sum_cons, wordCount] at this ⊢
    omega

theorem closeAfter_suffix : ∀ (s r : List Char), closeAfter s = some r → r <:+ s := by
  intro s r h
  unfold closeAfter at h
  split at h
  · cases h
  · injection h with h1
    subst h1
    exact List.drop_suffix _ _

theorem findClose_suffix : ∀ (l r : List Char), findClose l = some r → r <:+ l := by
  intro l
  induction l with
  | nil => intro r h; cases h
  | cons c rest ih =>
    intro r h
    simp only [findClose] at h
    split at h
    · cases hca : closeAfter (rest.drop 3) with
      | none =>
        rw [hca] at h
        exact (ih r h).trans (List.suffix_cons c rest)
      | some rem =>
        rw [hca] at h
        injection h with h1
        subst h1
        exact ((closeAfter_suffix _ _ hca).trans (List.drop_suffix 3 rest)).trans
          (List.suffix_cons c rest)
    · exact (ih r h).trans (List.suffix_cons c rest)

theorem tryOpen_suffix : ∀ (is : List Nat) (rest r : List Char),
    tryOpen rest is = some r → r <:+ rest := by
  intro is
  induction is with
  | nil => intro rest r h; cases h
  | cons i is ih =>
    intro rest r h
    simp only [tryOpen] at h
    cases hfc : findClose (rest.drop (i + 1)) with
    | none =>
      rw [hfc] at h
      exact ih rest r h
    | some rem =>
      rw [hfc] at h
      injection h with h1
      subst h1
      exact (findClose_suffix _ _ hfc).trans (List.drop_suffix _ _)

theorem stripFrontmatter_suffix (content : List Char) :
    stripFrontmatter content <:+ content := by
  unfold stripFrontmatter
  split
  · cases hto : tryOpen (content.drop 3) (nlPositions (content.drop 3)).reverse with
    | none => exact List.suffix_refl content
    | some rem =>
      simp only [hto]
      exact (tryOpen_suffix _ _ _ hto).trans (List.drop_suffix 3 content)
  · exact List.suffix_refl content

end RAGService

namespace RAGService

theorem splitWs_ne_nil : ∀ l : List Char, splitWs l ≠ [] := by
  intro l
  induction l with
  | nil => simp [splitWs]
  | cons c rest ih =>
    cases rest with
    | nil =>
      simp only [splitWs]
      split <;> simp
    | cons c2 rest2 =>
      simp only [splitWs]
      split
      · split
        · exact ih
        · simp
      · unfold consHead
        split <;> simp

theorem consHead_length (c : Char) (L : List (List Char)) (h : L ≠ []) :
    (consHead c L).length = L.length := by
  cases L with
  | nil => exact absurd rfl h
  | cons p ps => rfl

theorem splitWs_bound : ∀ l : List Char,
    (wcAux false l ≤ (splitWs l).length ∧ 1 + wcAux true l ≤ (splitWs l).length) ∧
    ((∃ c rest, l = c :: rest ∧ ws c = true) → 1 + wcAux false l ≤ (splitWs l).length) := by
  intro l
  induction l with
  | nil =>
    refine ⟨⟨by simp [wcAux, splitWs], by simp [wcAux, splitWs]⟩, ?_⟩
    rintro ⟨c, rest, h, -⟩
    cases h
  | cons c rest ih =>
    cases rest with
    | nil =>
      by_cases hc : ws c
      · rw [show splitWs [c] = [[], []] from by simp [splitWs, hc]]
        rw [show wcAux false [c] = 0 from by simp [wcAux, hc]]
        rw [show wcAux true [c] = 0 from by simp [wcAux, hc]]
        exact ⟨⟨by simp, by simp⟩, fun _ => by simp⟩
      · rw [show splitWs [c] = [[c]] from by simp [splitWs, hc]]
        rw [show wcAux false [c] = 1 from by simp [wcAux, hc]]
        rw [show wcAux true [c] = 0 from by simp [wcAux, hc]]
        refine ⟨⟨by simp, by simp⟩, ?_⟩
        rintro ⟨c', rest', heq, hws'⟩
        injection heq with h1 h2
        subst h1
        exact absurd hws' (by simp [hc])
    | cons c2 rest2 =>
      by_cases hc : ws c
      · by_cases hc2 : ws c2
        · rw [show splitWs (c :: c2 :: rest2) = splitWs (c2 :: rest2) from by
            simp [splitWs, hc, hc2]]
          rw [show wcAux false (c :: c2 :: rest2) = wcAux false (c2 :: rest2) from by
            simp [wcAux, hc]]
          rw [show wcAux true (c :: c2 :: rest2) = wcAux false (c2 :: rest2) from by
            simp [wcAux, hc]]
          have hS := ih.2 ⟨c2, rest2, rfl, hc2⟩
          exact ⟨⟨ih.1.1, hS⟩, fun _ => hS⟩
        · rw [show splitWs (c :: c2 :: rest2) = [] :: splitWs (c2 :: rest2) from by
            simp [splitWs, hc, hc2]]
          rw [show wcAux false (c :: c2 :: rest2) = wcAux false (c2 :: rest2) from by
            simp [wcAux, hc]]
          rw [show wcAux true (c :: c2 :: rest2) = wcAux false (c2 :: rest2) from by
            simp [wcAux, hc]]
          have hP := ih.1.1
          refine ⟨⟨?_, ?_⟩, fun _ => ?_⟩ <;>
            · simp only [List.length_cons]
              omega
      · rw [show splitWs (c :: c2 :: rest2) = consHead c (splitWs (c2 :: rest2)) from by
          simp [splitWs, hc]]
        rw [consHead_length c _ (splitWs_ne_nil _)]
        rw [show wcAux false (c :: c2 :: rest2) = 1 + wcAux true (c2 :: rest2) from by
          simp [wcAux, hc]]
        rw [show wcAux true (c :: c2 :: rest2) = wcAux true (c2 :: rest2) from by
          simp [wcAux, hc]]
        have hR := ih.1.2
        refine ⟨⟨by omega, by omega⟩, ?_⟩
        rintro ⟨c', rest', heq, hws'⟩
        injection heq with h1 h2
        subst h1
        exact absurd hws' (by simp [hc])

theorem splitWs_nonws : ∀ (l p : List Char), p ∈ splitWs l → ∀ c ∈ p, ws c = false := by
  intro l
  induction l with
  | nil =>
    intro p hp
    rw [show splitWs [] = [[]] from rfl] at hp
    rcases List.mem_singleton.1 hp with rfl
    simp
  | cons c rest ih =>
    cases rest with
    | nil =>
      by_cases hc : ws c
      · intro p hp
        rw [show splitWs [c] = [[], []] from by simp [splitWs, hc]] at hp
        rcases List.mem_cons.1 hp with rfl | hp'
        · simp
        · rcases List.mem_singleton.1 hp' with rfl
          simp
      · intro p hp
        rw [show splitWs [c] = [[c]] from by simp [splitWs, hc]] at hp
        rcases List.mem_singleton.1 hp with rfl
        intro x hx
        rcases List.mem_singleton.1 hx with rfl
        simpa using hc
    | cons c2 rest2 =>
      by_cases hc : ws c
      · by_cases hc2 : ws c2
        · intro p hp
          rw [show splitWs (c :: c2 :: rest2) = splitWs (c2 :: rest2) from by
            simp [splitWs, hc, hc2]] at hp
          exact ih p hp
        · intro p hp
          rw [show splitWs (c :: c2 :: rest2) = [] :: splitWs (c2 :: rest2) from by
            simp [splitWs, hc, hc2]] at hp
          rcases List.mem_cons.1 hp with rfl | hp'
          · simp
          · exact ih p hp'
      · intro p hp
        rw [show splitWs (c :: c2 :: rest2) = consHead c (splitWs (c2 :: rest2)) from by
          simp [splitWs, hc]] at hp
        cases hsp : splitWs (c2 :: rest2) with
        | nil => exact absurd hsp (splitWs_ne_nil _)
        | cons q qs =>
          rw [hsp] at hp
          simp only [consHead] at hp
          rcases List.mem_cons.1 hp with rfl | hp'
          · intro x hx
            rcases List.mem_cons.1 hx with rfl | hx'
            · simpa using hc
            · exact ih q (by rw [hsp]; exact List.mem_cons_self _ _) x hx'
          · exact ih p (by rw [hsp]; exact List.mem_cons_of_mem _ hp')

theorem wcAux_nonws : ∀ w : List Char, (∀ c ∈ w, ws c = false) →
    wcAux true w = 0 ∧ wcAux false w ≤ 1 := by
  intro w
  induction w with
  | nil => exact fun _ => ⟨rfl, by simp [wcAux]⟩
  | cons c rest ih =>
    intro h
    have hc := h c (List.mem_cons_self _ _)
    have ih' := ih (fun x hx => h x (List.mem_cons_of_mem _ hx))
    constructor
    · rw [show wcAux true (c :: rest) = wcAux true rest from by simp [wcAux, hc]]
      exact ih'.1
    · rw [show wcAux false (c :: rest) = 1 + wcAux true rest from by simp [wcAux, hc]]
      omega

theorem wordCount_joinWords_le : ∀ ps : List (List Char),
    (∀ p ∈ ps, ∀ c ∈ p, ws c = false) → wordCount (joinWords ps) ≤ ps.length := by
  intro ps
  induction ps with
  | nil => intro _; simp [joinWords, wordCount, wcAux]
  | cons w rest ih =>
    intro h
    cases rest with
    | nil =>
      rw [show joinWords [w] = w from rfl]
      have := (wcAux_nonws w (h w (List.mem_cons_self _ _))).2
      simpa [wordCount] using this
    | cons w2 rest2 =>
      rw [show joinWords (w :: w2 :: rest2) = w ++ ' ' :: joinWords (w2 :: rest2) from rfl]
      rw [wordCount_append_ws w _ ' ' (by decide)]
      have h1 := (wcAux_nonws w (h w (List.mem_cons_self _ _))).2
      have h2 := ih (fun p hp => h p (List.mem_cons_of_mem _ hp))
      simp only [List.length_cons] at h2 ⊢
      unfold wordCount at h1 h2 ⊢
      omega

theorem forceSplit_bound (m : Nat) (hm : 0 < m) :
    ∀ (fuel : Nat) (l : List (List Char)), l.length ≤ fuel →
      (∀ p ∈ l, ∀ c ∈ p, ws c = false) →
      ∀ x ∈ forceSplit m fuel l, wordCount x ≤ m := by
  intro fuel
  induction fuel with
  | zero =>
    intro l hl _ x hx
    have hnil : l = [] := List.length_eq_zero.1 (Nat.le_zero.1 hl)
    subst hnil
    simp [forceSplit] at hx
  | succ fuel ih =>
    intro l hl hp x hx
    cases l with
    | nil => simp [forceSplit] at hx
    | cons p ps =>
      rw [show forceSplit m (fuel + 1) (p :: ps)
          = joinWords ((p :: ps).take m) :: forceSplit m fuel ((p :: ps).drop m) from by
        simp [forceSplit]] at hx
      rcases List.mem_cons.1 hx with rfl | hx'
      · have hle : wordCount (joinWords ((p :: ps).take m)) ≤ ((p :: ps).take m).length :=
          wordCount_joinWords_le _ (fun q hq => hp q (List.mem_of_mem_take hq))
        exact le_trans hle (List.length_take_le m (p :: ps))
      · refine ih _ ?_ (fun q hq => hp q (List.mem_of_mem_drop hq)) x hx'
        have hlen : (p :: ps).length ≤ fuel + 1 := hl
        rw [List.length_drop]
        simp only [List.length_cons] at hlen ⊢
        omega

theorem splitLongChunk_bound (chunk : List Char) (m : Nat) (hm : 0 < m) :
    ∀ x ∈ splitLongChunk chunk m, wordCount x ≤ m := by
  intro x hx
  simp only [splitLongChunk] at hx
  split at hx
  · rcases List.mem_singleton.1 hx with rfl
    exact le_trans (splitWs_bound x).1.1 (by assumption)
  · rw [List.mem_flatten] at hx
    rcases hx with ⟨L, hL, hxL⟩
    rw [List.mem_map] at hL
    rcases hL with ⟨c', hc', rfl⟩
    by_cases hbig : m < (splitWs c').length
    · rw [if_pos hbig] at hxL
      exact forceSplit_bound m hm _ _ le_rfl (fun p hp => splitWs_nonws c' p hp) x hxL
    · rw [if_neg hbig] at hxL
      rcases List.mem_singleton.1 hxL with rfl
      exact le_trans (splitWs_bound x).1.1 (by omega)

theorem appendChunks_mem : ∀ (ts : List (List Char)) (acc : List ChunkContent)
    (c : ChunkContent), c ∈ appendChunks acc ts → c ∈ acc ∨ c.text ∈ ts := by
  intro ts
  induction ts with
  | nil => intro acc c h; exact Or.inl h
  | cons t ts ih =>
    intro acc c h
    rw [show appendChunks acc (t :: ts)
        = appendChunks (acc ++ [⟨t, acc.length⟩]) ts from rfl] at h
    rcases ih _ c h with h' | h'
    · rcases List.mem_append.1 h' with h'' | h''
      · exact Or.inl h''
      · rcases List.mem_singleton.1 h'' with rfl
        exact Or.inr (List.mem_cons_self _ _)
    · exact Or.inr (List.mem_cons_of_mem _ h')

theorem appendChunks_indices : ∀ (ts : List (List Char)) (acc : List ChunkContent),
    acc.map ChunkContent.index = List.range acc.length →
    (appendChunks acc ts).map ChunkContent.index
      = List.range (appendChunks acc ts).length := by
  intro ts
  induction ts with
  | nil => intro acc h; exact h
  | cons t ts ih =>
    intro acc h
    refine ih (acc ++ [⟨t, acc.length⟩]) ?_
    rw [List.map_append, h, List.length_append]
    simp [List.range_succ]

end RAGService

namespace RAGService

theorem chunkStep_cnt (cur : List Char) (cnt : Nat) (acc : List ChunkContent)
    (line : List Char) (next : Option (List Char)) (hcnt : cnt = wordCount cur) :
    (chunkStep cur cnt acc line next).2.1
      = wordCount (chunkStep cur cnt acc line next).1 := by
  unfold chunkStep
  split
  · rfl
  · dsimp only
    rw [wordCount_lineJoin, hcnt]

theorem chunkStep_acc_le (cur : List Char) (cnt : Nat) (acc : List ChunkContent)
    (line : List Char) (next : Option (List Char)) (hcnt : cnt = wordCount cur)
    (hle : cnt ≤ 250) (hacc : ∀ c ∈ acc, wordCount c.text ≤ 250) :
    ∀ c ∈ (chunkStep cur cnt acc line next).2.2, wordCount c.text ≤ 250 := by
  unfold chunkStep
  split
  · dsimp only
    split
    · intro c hc
      rcases List.mem_append.1 hc with h' | h'
      · exact hacc c h'
      · rcases List.mem_singleton.1 h' with rfl
        show wordCount (collapse (trim cur)) ≤ 250
        rw [wordCount_collapse, wordCount_trim]
        omega
    · exact hacc
  · exact hacc

theorem chunkLoop_le250 : ∀ (lines : List (List Char)) (cur : List Char) (cnt : Nat)
    (acc : List ChunkContent), cnt = wordCount cur → cnt ≤ 250 →
    (∀ c ∈ acc, wordCount c.text ≤ 250) →
    ∀ c ∈ chunkLoop lines cur cnt acc, wordCount c.text ≤ 250 := by
  intro lines
  induction lines with
  | nil =>
    intro cur cnt acc hcnt hle hacc c hc
    simp only [chunkLoop] at hc
    split at hc
    · rcases List.mem_append.1 hc with h' | h'
      · exact hacc c h'
      · rcases List.mem_singleton.1 h' with rfl
        show wordCount (collapse (trim cur)) ≤ 250
        rw [wordCount_collapse, wordCount_trim]
        omega
    · exact hacc c hc
  | cons raw rest ih =>
    intro cur cnt acc hcnt hle hacc c hc
    simp only [chunkLoop] at hc
    split at hc
    · exact ih cur cnt acc hcnt hle hacc c hc
    · split at hc
      · refine ih [] 0 _ rfl (by omega) ?_ c hc
        intro x hx
        have hstep := chunkStep_acc_le cur cnt acc (trim raw) rest.head? hcnt hle hacc
        revert hx
        split
        · intro hx
          rcases appendChunks_mem _ _ x hx with h' | h'
          · exact hstep x h'
          · exact splitLongChunk_bound _ 250 (by omega) x.text h'
        · intro hx
          exact hstep x hx
      · refine ih _ _ _ (chunkStep_cnt cur cnt acc (trim raw) rest.head? hcnt) (by omega)
          (chunkStep_acc_le cur cnt acc (trim raw) rest.head? hcnt hle hacc) c hc

theorem chunkStep_no_emit (cur : List Char) (cnt : Nat) (acc : List ChunkContent)
    (line : List Char) (next : Option (List Char)) (h : cnt + wordCount line ≤ 200) :
    chunkStep cur cnt acc line next = (lineJoin cur line, cnt + wordCount line, acc) := by
  unfold chunkStep
  rw [if_neg]
  rintro ⟨-, h' | ⟨h', -⟩⟩ <;> omega

theorem chunkLoop_small : ∀ (lines : List (List Char)) (cur : List Char) (cnt : Nat)
    (acc : List ChunkContent) (W : Nat), W < 10 → cnt = wordCount cur →
    wordCount cur + (lines.map wordCount).sum ≤ W →
    (∀ c ∈ acc, wordCount c.text < 10) →
    ∀ c ∈ chunkLoop lines cur cnt acc, wordCount c.text < 10 := by
  intro lines
  induction lines with
  | nil =>
    intro cur cnt acc W hW hcnt hsum hacc c hc
    simp only [chunkLoop] at hc
    split at hc
    · rcases List.mem_append.1 hc with h' | h'
      · exact hacc c h'
      · rcases List.mem_singleton.1 h' with rfl
        show wordCount (collapse (trim cur)) < 10
        rw [wordCount_collapse, wordCount_trim]
        simp only [List.map_nil, List.sum_nil] at hsum
        omega
    · exact hacc c hc
  | cons raw rest ih =>
    intro cur cnt acc W hW hcnt hsum hacc c hc
    simp only [List.map_cons, List.sum_cons] at hsum
    have hwtrim : wordCount (trim raw) = wordCount raw := wordCount_trim raw
    have hsmall : cnt + wordCount (trim raw) ≤ 200 := by
      rw [hwtrim, hcnt]
      omega
    simp only [chunkLoop] at hc
    split at hc
    · refine ih cur cnt acc W hW hcnt ?_ hacc c hc
      omega
    · rw [chunkStep_no_emit cur cnt acc (trim raw) rest.head? hsmall] at hc
      dsimp only at hc
      split at hc
      · exfalso
        have : cnt + wordCount (trim raw) ≤ 200 := hsmall
        omega
      · refine ih (lineJoin cur (trim raw)) _ acc W hW ?_ ?_ hacc c hc
        · rw [wordCount_lineJoin, hcnt, hwtrim]
        · rw [wordCount_lineJoin, hwtrim]
          omega

theorem chunkStep_indices (cur : List Char) (cnt : Nat) (acc : List ChunkContent)
    (line : List Char) (next : Option (List Char))
    (h : acc.map ChunkContent.index = List.range acc.length) :
    ((chunkStep cur cnt acc line next).2.2).map ChunkContent.index
      = List.range ((chunkStep cur cnt acc line next).2.2).length := by
  unfold chunkStep
  split
  · dsimp only
    split
    · rw [List.map_append, h, List.length_append]
      simp [List.range_succ]
    · exact h
  · exact h

theorem chunkLoop_indices : ∀ (lines : List (List Char)) (cur : List Char) (cnt : Nat)
    (acc : List ChunkContent),
    acc.map ChunkContent.index = List.range acc.length →
    (chunkLoop lines cur cnt acc).map ChunkContent.index
      = List.range (chunkLoop lines cur cnt acc).length := by
  intro lines
  induction lines with
  | nil =>
    intro cur cnt acc h
    simp only [chunkLoop]
    split
    · rw [List.map_append, h, List.length_append]
      simp [List.range_succ]
    · exact h
  | cons raw rest ih =>
    intro cur cnt acc h
    simp only [chunkLoop]
    split
    · exact ih cur cnt acc h
    · split
      · refine ih [] 0 _ ?_
        have hstep := chunkStep_indices cur cnt acc (trim raw) rest.head? h
        split
        · exact appendChunks_indices _ _ hstep
        · exact hstep
      · exact ih _ _ _ (chunkStep_indices cur cnt acc (trim raw) rest.head? h)

/-- Claim C5: every chunk emitted by the chunker has a word count between 10
and 250 inclusive, and an input of fewer than 10 words yields no chunks. -/
theorem c5_chunk_bounds (content : List Char) :
    (∀ c ∈ splitIntoParagraphs content,
        10 ≤ wordCount c.text ∧ wordCount c.text ≤ 250) ∧
    (wordCount content < 10 → splitIntoParagraphs content = []) := by
  constructor
  · intro c hc
    have h1 := List.mem_filter.1 hc
    refine ⟨of_decide_eq_true h1.2, ?_⟩
    exact chunkLoop_le250 _ [] 0 [] rfl (by omega) (by simp) c h1.1
  · intro hsmall
    unfold splitIntoParagraphs
    rw [List.filter_eq_nil_iff]
    intro c hc
    have hlt : wordCount c.text < 10 := by
      refine chunkLoop_small _ [] 0 [] (wordCount content) hsmall rfl ?_ (by simp) c hc
      rw [splitNl_sum]
      have hsuf := wordCount_of_suffix (stripFrontmatter_suffix content)
      simpa [wordCount, wcAux] using hsuf
    simp only [decide_eq_true_eq]
    omega

theorem c5_chunk_bounds_witness :
    wordCount ("one two three".data) < 10 ∧
    splitIntoParagraphs ("one two three".data) = [] :=
  ⟨by decide, (c5_chunk_bounds ("one two three".data)).2 (by decide)⟩

end RAGService

namespace RAGService

/-- 5 words on a first line, then a single 300-word line: the 5-word chunk is
emitted at the forced break, indexed 0, then dropped by the 10-word filter,
leaving indices `[1, 2]`. -/
def c6text : List Char := ("a a a a a\n".data) ++ (List.replicate 300 ("a ".data)).flatten

set_option maxRecDepth 100000 in
/-- Claim C6 as stated is false: the `paragraph_index` values carried by the
returned chunks are not `0, 1, 2, …` — the sub-10-word filter runs after the
indices are assigned and leaves gaps. -/
theorem c6_counterexample :
    (splitIntoParagraphs c6text).map ChunkContent.index
      ≠ List.range (splitIntoParagraphs c6text).length := by
  decide

/-- Claim C6 (corrected): before the short-chunk filter, the emitted chunks
carry exactly the indices `0, 1, 2, …` in emission order; the filter keeps
the recorded indices, so the returned chunks carry a strictly increasing —
but possibly gapped — subsequence of them. -/
theorem c6_indices_monotone (content : List Char) :
    List.Pairwise (· < ·) ((splitIntoParagraphs content).map ChunkContent.index) ∧
    (chunkLoop (splitNl (stripFrontmatter content)) [] 0 []).map ChunkContent.index
      = List.range (chunkLoop (splitNl (stripFrontmatter content)) [] 0 []).length := by
  have hpre := chunkLoop_indices (splitNl (stripFrontmatter content)) [] 0 [] (by simp)
  refine ⟨?_, hpre⟩
  unfold splitIntoParagraphs
  have hsub := (List.filter_sublist (l := chunkLoop (splitNl (stripFrontmatter content)) [] 0 [])
    (p := fun c => decide (10 ≤ wordCount c.text))).map ChunkContent.index
  exact List.Pairwise.sublist hsub (hpre ▸ List.pairwise_lt_range _)

end RAGService

namespace RAGService

/-- A frontmatter block with inner text `I`, delimited by `---` lines. -/
def fmBlock (I : List Char) : List Char :=
  '-' :: '-' :: '-' :: '\n' :: (I ++ ('\n' :: '-' :: '-' :: '-' :: '\n' :: []))

theorem nlPositions_nl_nonws (B : List Char) (hB : ∀ c, B.head? = some c → ws c = false) :
    nlPositions ('\n' :: B) = [0] := by
  have hrun : ('\n' :: B).takeWhile (fun c => ws c) = ['\n'] := by
    rw [List.takeWhile_cons_of_pos (by decide)]
    cases B with
    | nil => rfl
    | cons c B' =>
      rw [List.takeWhile_cons_of_neg]
      simpa using hB c rfl
  unfold nlPositions
  rw [hrun]
  decide

theorem closeAfter_nl (B : List Char) (hB : ∀ c, B.head? = some c → ws c = false) :
    closeAfter ('\n' :: B) = some B := by
  unfold closeAfter
  rw [nlPositions_nl_nonws B hB]
  rfl

theorem findClose_closing (B : List Char) (hB : ∀ c, B.head? = some c → ws c = false) :
    findClose ('\n' :: '-' :: '-' :: '-' :: '\n' :: B) = some B := by
  simp only [findClose]
  rw [if_pos (by simp [List.isPrefixOf])]
  rw [show (('-' :: '-' :: '-' :: '\n' :: B : List Char).drop 3) = '\n' :: B from rfl]
  rw [closeAfter_nl B hB]

theorem findClose_skip : ∀ (I tail : List Char), hasNlDash I = false →
    tail.head? = some '\n' → findClose (I ++ tail) = findClose tail := by
  intro I
  induction I with
  | nil => intro tail _ _; rfl
  | cons c I' ih =>
    intro tail hdash htail
    rw [List.cons_append]
    cases I' with
    | nil =>
      cases tail with
      | nil => cases htail
      | cons t ts =>
        have ht : t = '\n' := Option.some.inj htail
        subst ht
        simp only [List.nil_append, findClose]
        rw [if_neg (by simp [List.isPrefixOf])]
    | cons c2 I'' =>
      have hdash' : hasNlDash (c2 :: I'') = false := by
        simp only [hasNlDash, Bool.or_eq_false_iff] at hdash
        exact hdash.2
      have hpair : ¬ (c = '\n' ∧ c2 = '-') := by
        simp only [hasNlDash, Bool.or_eq_false_iff] at hdash
        intro ⟨h1, h2⟩
        rw [h1, h2] at hdash
        simp at hdash
      rw [List.cons_append] at *
      simp only [findClose]
      rw [if_neg]
      · exact ih tail hdash' htail
      · intro hcond
        simp only [Bool.and_eq_true, beq_iff_eq] at hcond
        rcases hcond with ⟨hcnl, hpre⟩
        refine hpair ⟨hcnl, ?_⟩
        simp [List.isPrefixOf] at hpre
        exact hpre.1.symm

theorem stripFrontmatter_block (I B : List Char)
    (hne : I ≠ []) (hInws : ∀ c, I.head? = some c → ws c = false)
    (hIdash : hasNlDash I = false)
    (hB : ∀ c, B.head? = some c → ws c = false) :
    stripFrontmatter (fmBlock I ++ B) = B := by
  have hfull : fmBlock I ++ B
      = '-' :: '-' :: '-' :: '\n' :: (I ++ ('\n' :: '-' :: '-' :: '-' :: '\n' :: B)) := by
    unfold fmBlock
    simp [List.append_assoc]
  rw [hfull]
  have hresthead : ∀ c, (I ++ ('\n' :: '-' :: '-' :: '-' :: '\n' :: B)).head? = some c →
      ws c = false := by
    intro c hc
    cases I with
    | nil => exact absurd rfl hne
    | cons i0 I' =>
      rw [List.cons_append] at hc
      simp only [List.head?] at hc
      injection hc with h
      subst h
      exact hInws i0 rfl
  unfold stripFrontmatter
  rw [if_pos (by simp [List.isPrefixOf])]
  rw [show (('-' :: '-' :: '-' :: '\n' ::
      (I ++ ('\n' :: '-' :: '-' :: '-' :: '\n' :: B)) : List Char).drop 3)
    = '\n' :: (I ++ ('\n' :: '-' :: '-' :: '-' :: '\n' :: B)) from rfl]
  rw [nlPositions_nl_nonws _ hresthead]
  rw [show ([0] : List Nat).reverse = [0] from rfl]
  simp only [tryOpen]
  rw [show (('\n' :: (I ++ ('\n' :: '-' :: '-' :: '-' :: '\n' :: B)) : List Char).drop (0 + 1))
    = I ++ ('\n' :: '-' :: '-' :: '-' :: '\n' :: B) from rfl]
  rw [findClose_skip I ('\n' :: '-' :: '-' :: '-' :: '\n' :: B) hIdash rfl,
    findClose_closing B hB]

theorem stripFrontmatter_not_fm (B : List Char)
    (hB : ("---".data.isPrefixOf B) = false) : stripFrontmatter B = B := by
  unfold stripFrontmatter
  rw [if_neg (by simp [hB])]

/-- Claim C7 as stated is false: when the body itself begins with a
frontmatter-shaped block, chunking `F + B` differs from chunking `B` — only
the first block is stripped, so `B`'s own block is stripped in one case and
chunked as text in the other. -/
theorem c7_counterexample :
    splitIntoParagraphs (("---\nt\n---\n" ++ "---\na b c d e f g h i j\n---\n" : String).data)
      ≠ splitIntoParagraphs (("---\na b c d e f g h i j\n---\n" : String).data) := by
  decide

/-- Claim C7 (corrected): chunking is invariant under prepending a
frontmatter block `---\nI\n---\n` provided the regex cannot misparse the
combination: the inner text `I` is nonempty, starts with a non-whitespace
character, and contains no newline immediately followed by a dash (so no
premature closing delimiter), and the body `B` neither starts with `---`
(it would be taken as frontmatter when chunked alone) nor with whitespace
(which the frontmatter match would swallow). -/
theorem c7_frontmatter_invariance (I B : List Char)
    (hne : I ≠ []) (hInws : ∀ c, I.head? = some c → ws c = false)
    (hIdash : hasNlDash I = false)
    (hBpre : ("---".data.isPrefixOf B) = false)
    (hBws : ∀ c, B.head? = some c → ws c = false) :
    splitIntoParagraphs (fmBlock I ++ B) = splitIntoParagraphs B := by
  unfold splitIntoParagraphs
  rw [stripFrontmatter_block I B hne hInws hIdash hBws,
    stripFrontmatter_not_fm B hBpre]

theorem c7_frontmatter_invariance_witness :
    splitIntoParagraphs (fmBlock ("title: x".data) ++ ("hello a b c d e f g h i j".data))
      = splitIntoParagraphs ("hello a b c d e f g h i j".data) :=
  c7_frontmatter_invariance ("title: x".data) ("hello a b c d e f g h i j".data)
    (by decide) (fun c hc => by injection hc with h; subst h; decide)
    (by decide) (by decide) (fun c hc => by injection hc with h; subst h; decide)

end RAGService
